import Mathlib

/-!
Verification of the bidirectional-BFS search engine of the
SixDegreeOfSeparation repository (`backend/bfs.py`) against its
natural-language specification.

The Python source is shallowly embedded: pure helpers become Lean
functions, the stateful search loop becomes explicit state passing over a
`SearchState`, and all interaction with the Wikipedia API (HTTP responses,
clock readings, the random shuffle, unexpected task failures) is supplied
by an explicit oracle, so that every theorem quantifies over all API
behaviors.  Caches (`_page_cache`, `_category_cache`, `_backlink_cache`)
are association lists threaded through the state.
-/

/-! ## String helpers

Python's `pat in s` substring test and `startswith` are modelled on the
character lists underlying `String`. -/

/-- Boolean test that `pat` is an initial segment of `s` (character lists). -/
def leadsWith : List Char → List Char → Bool
  | [], _ => true
  | _ :: _, [] => false
  | a :: as, b :: bs => a == b && leadsWith as bs

/-- Boolean test that `pat` occurs contiguously inside `s` (character lists);
models Python's `pat in s`. -/
def occursIn (pat : List Char) : List Char → Bool
  | [] => pat.isEmpty
  | b :: bs => leadsWith pat (b :: bs) || occursIn pat bs

/-- Python `pat in s` for strings. -/
def strContains (s pat : String) : Bool := occursIn pat.data s.data

/-- Python `s.startswith(pat)`. -/
def strStarts (s pat : String) : Bool := leadsWith pat.data s.data

/-- Python `s.lower()` (ASCII case folding, as in `Char.toLower`; every
pattern and keyword in the source is ASCII). Defined on the character list
so that it evaluates by kernel reduction. -/
def strLower (s : String) : String := ⟨s.data.map Char.toLower⟩

/-- Python `s[0].isdigit()` guarded by nonemptiness through the character
list (`s[0]` is the head of the character list). -/
def headIsDigit (s : String) : Bool :=
  match s.data with
  | [] => false
  | c :: _ => c.isDigit

/-- Python `s[n:]` (drop the first `n` characters). -/
def strDrop (s : String) (n : Nat) : String := ⟨s.data.drop n⟩

/-! ## Constants of `backend/bfs.py` -/

def TIMEOUT_SECONDS : Nat := 60
def MAX_NODES_VISITED : Nat := 2000
def BATCH_SIZE : Nat := 20
def CATEGORY_BATCH_SIZE : Nat := 10
def MAX_CANDIDATES_TO_CHECK : Nat := 300
def MAX_DEGREE : Nat := 30
def MAX_STEP_COUNT : Nat := 100

/-- `PERSON_POSITIVE_KEYWORDS` from `backend/bfs.py`. -/
def PERSON_POSITIVE_KEYWORDS : List String := [
  "living people", "people from", "alumni", "players", "actors", "actresses",
  "politicians", "singers", "musicians", "writers", "directors", "scientists",
  "businesspeople", "entrepreneurs", "athletes", "journalists", "activists",
  "emperors", "monarchs", "khans", "sultans", "pharaohs", "tsars", "czars",
  "kings", "queens", "princes", "princesses", "dukes", "counts", "barons",
  "generals", "commanders", "admirals", "marshals", "warlords",
  "conquerors", "rulers", "regents", "caliphs", "popes", "patriarchs",
  "philosophers", "theologians", "historians", "mathematicians", "inventors"]

/-- `PERSON_NEGATIVE_KEYWORDS` from `backend/bfs.py`. -/
def PERSON_NEGATIVE_KEYWORDS : List String := [
  "animal", "horse", "racehorse", "dog", "cat breed", "species",
  "fictional", "character", "mythology", "mythological",
  "band", "musical group", "company", "organization", "corporation",
  "film", "movie", "song", "album", "book", "novel", "game",
  "place", "city", "country", "river", "mountain", "building",
  "event", "battle", "war", "treaty", "conference",
  "dynasty", "empire", "kingdom"]

/-- `PERSON_EXCEPTION_KEYWORDS` from `backend/bfs.py`. -/
def PERSON_EXCEPTION_KEYWORDS : List String :=
  ["activist", "trainer", "owner", "breeder", "rider"]

/-- `META_PAGE_PATTERNS` from `backend/bfs.py`. -/
def META_PAGE_PATTERNS : List String := [
  "list of", "category:", "template:", "portal:", "help:", "wikipedia:", "file:",
  "user:", "talk:", "special:", "mediawiki:", "draft:", "timedtext:", "module:",
  "disambiguation", "timeline of", "history of", "geography of", "culture of",
  "economy of", "politics of", "government of", "military of"]

/-- `VIP_ALLOWLIST` from `backend/bfs.py` (a Python set; membership is
string equality, modelled on a list). -/
def VIP_ALLOWLIST : List String := [
  "Donald Trump", "Joe Biden", "Barack Obama", "George W. Bush", "Bill Clinton",
  "Hillary Clinton", "Vladimir Putin", "Xi Jinping", "Angela Merkel", "Emmanuel Macron",
  "Boris Johnson", "Narendra Modi", "Shinzo Abe", "Justin Trudeau", "Benjamin Netanyahu",
  "Genghis Khan", "Kublai Khan", "Alexander the Great", "Julius Caesar", "Augustus",
  "Napoleon Bonaparte", "Adolf Hitler", "Joseph Stalin", "Winston Churchill", "Franklin D. Roosevelt",
  "Queen Victoria", "Queen Elizabeth II", "King Charles III", "Henry VIII of England",
  "Louis XIV", "Peter the Great", "Catherine the Great", "Cleopatra", "Ramesses II",
  "George Washington", "Abraham Lincoln", "Thomas Jefferson", "Mahatma Gandhi",
  "Nelson Mandela", "Martin Luther King Jr.", "Che Guevara", "Ho Chi Minh",
  "Mao Zedong", "Vladimir Lenin", "Karl Marx", "Friedrich Engels",
  "Elon Musk", "Jeff Bezos", "Bill Gates", "Steve Jobs", "Mark Zuckerberg",
  "Warren Buffett", "Larry Page", "Sergey Brin", "Tim Cook", "Satya Nadella",
  "Jack Ma", "Richard Branson", "Oprah Winfrey",
  "Albert Einstein", "Isaac Newton", "Stephen Hawking", "Nikola Tesla", "Thomas Edison",
  "Marie Curie", "Charles Darwin", "Galileo Galilei", "Leonardo da Vinci", "Aristotle",
  "Plato", "Socrates", "Archimedes", "Alan Turing", "Richard Feynman",
  "Michael Jackson", "Elvis Presley", "The Beatles", "Madonna", "Taylor Swift",
  "Beyoncé", "Lady Gaga", "Kanye West", "Drake", "Rihanna",
  "Leonardo DiCaprio", "Tom Hanks", "Meryl Streep", "Brad Pitt", "Angelina Jolie",
  "Johnny Depp", "Will Smith", "Dwayne Johnson", "Marilyn Monroe", "Audrey Hepburn",
  "Michael Jordan", "LeBron James", "Cristiano Ronaldo", "Lionel Messi", "Serena Williams",
  "Roger Federer", "Muhammad Ali", "Mike Tyson", "Usain Bolt", "Tiger Woods",
  "Jesus", "Muhammad", "Buddha", "Pope Francis", "Dalai Lama",
  "Confucius", "Moses", "Saint Paul", "Martin Luther"]

/-! ## Heuristic filter (`BidirectionalBFS._heuristic_filter`) -/

/-- The per-title acceptance test of `_heuristic_filter`.  A candidate is
kept unless (a) it is nonempty and its first character is a digit (Python
`if candidate and candidate[0].isdigit()`), (b) it starts with `"List of"`,
or (c) its lower-casing contains one of `META_PAGE_PATTERNS`.  Note that an
empty candidate is falsy in Python, so rule (a) does not fire on it. -/
def heuristicKeep (candidate : String) : Bool :=
  let lower := strLower candidate
  if headIsDigit candidate then false
  else if strStarts candidate "List of" then false
  else if META_PAGE_PATTERNS.any (fun pattern => strContains lower pattern) then false
  else true

/-- `BidirectionalBFS._heuristic_filter`: keeps, in input order, the
candidates passing `heuristicKeep`. -/
def heuristicFilter (candidates : List String) : List String :=
  candidates.filter heuristicKeep

/-! ## Category decision rule (`BidirectionalBFS._is_human`)

The two `re.search` patterns are modelled by explicit scans over the
character list: `\d{4} births` (resp. `deaths`) succeeds iff some position
starts four digits followed by the literal suffix, and
`\d{1,2}(st|nd|rd|th)-century` succeeds iff some position starts one or two
digits followed by an ordinal suffix and `-century`. -/

/-- Scan for four consecutive digits followed by `suffix`. -/
def hasDigits4Then (suffix : List Char) : List Char → Bool
  | [] => false
  | c :: rest =>
    (c.isDigit && (match rest with
      | c2 :: c3 :: c4 :: rest2 =>
        c2.isDigit && c3.isDigit && c4.isDigit && leadsWith suffix rest2
      | _ => false))
    || hasDigits4Then suffix rest

/-- Ordinal suffix of the century pattern: `st|nd|rd|th` then `-century`. -/
def centurySuffix (l : List Char) : Bool :=
  ["st-century", "nd-century", "rd-century", "th-century"].any
    (fun suf => leadsWith suf.data l)

/-- Scan for `\d{1,2}(st|nd|rd|th)-century`. -/
def hasCenturyPattern : List Char → Bool
  | [] => false
  | c :: rest =>
    (c.isDigit && (centurySuffix rest ||
      (match rest with
        | c2 :: rest2 => c2.isDigit && centurySuffix rest2
        | [] => false)))
    || hasCenturyPattern rest

/-- `BidirectionalBFS._is_human`: negative gate over the cleaned categories
(with the exception keywords), then the positive gate over the raw
lower-cased categories. -/
def isHuman (categories cleanCategories : List String) : Bool :=
  if cleanCategories.any (fun cat =>
      PERSON_NEGATIVE_KEYWORDS.any (fun neg => strContains cat neg) &&
      !(PERSON_EXCEPTION_KEYWORDS.any (fun exc => strContains cat exc)))
  then false
  else categories.any (fun cat =>
    PERSON_POSITIVE_KEYWORDS.any (fun kw => strContains cat kw)
    || (hasDigits4Then " births".data cat.data && !strContains cat "animal")
    || (hasDigits4Then " deaths".data cat.data && !strContains cat "animal")
    || (hasCenturyPattern cat.data &&
        ["rulers", "people", "monarchs", "leaders", "generals"].any
          (fun role => strContains cat role)))

example : heuristicFilter ["Alan Turing", "List of mathematicians", "2024", "", "Help:Contents"]
    = ["Alan Turing", ""] := by decide

example : isHuman ["category:1946 births"] ["1946 births"] = true := by decide
example : isHuman ["category:films about mathematicians"] ["films about mathematicians"] = false := by decide
example : isHuman ["category:12th-century monarchs"] ["12th-century monarchs"] = true := by decide

/-! ## Caches

The three module-level caches of `backend/bfs.py` are modelled as
association lists, newest entry first, so that Python's dictionary
assignment (`d[k] = v`) is a cons and lookup takes the first match. -/

/-- `_category_cache : Dict[str, bool]`. -/
abbrev CatCache := List (String × Bool)

/-- `_page_cache : Dict[str, Tuple[str, List[str]]]`. -/
abbrev PageCache := List (String × (String × List String))

/-- `_backlink_cache : Dict[str, List[str]]`. -/
abbrev BlCache := List (String × List String)

/-- Dictionary lookup: first (most recent) binding wins. -/
def assocLookup {β : Type} : List (String × β) → String → Option β
  | [], _ => none
  | e :: rest, k => if e.1 == k then some e.2 else assocLookup rest k

/-- Dictionary assignment `d[k] = v`. -/
def assocInsert {β : Type} (d : List (String × β)) (k : String) (v : β) :
    List (String × β) := (k, v) :: d

/-! ## Batched category check (`_batch_check_categories` and its inner
`check_batch`)

A category-query response is either a failure (transport error, non-200
status, or malformed JSON -- all of which the code turns into "no titles,
no cache writes" before the page loop runs) or a list of pages, each
carrying the title reported by the API (redirects resolved, so it need not
occur in the queried batch), a `missing` marker, and the raw category
titles. -/

structure CatPage where
  title : String
  missing : Bool
  categories : List String
deriving Repr, DecidableEq

inductive CatResponse
  | failure
  | success (pages : List CatPage)
deriving Repr, DecidableEq

/-- One step of the page loop of `check_batch`: update the accumulated
human list and the category cache from one response page. -/
def checkBatchPage (acc : List String × CatCache) (page : CatPage) :
    List String × CatCache :=
  let humans := acc.1
  let cache := acc.2
  if page.missing then (humans, assocInsert cache page.title false)
  else
    let categories := page.categories.map strLower
    let cleanCats := categories.map (fun c =>
      if strStarts c "category:" then strDrop c 9 else c)
    let ih := isHuman categories cleanCats
    (if ih then humans ++ [page.title] else humans, assocInsert cache page.title ih)

/-- The inner `check_batch` of `_batch_check_categories`, as a function of
the response for its chunk.  On failure the `try` block is left before any
page is processed, so no title is returned and no verdict is cached. -/
def checkBatch (resp : CatResponse) (cache : CatCache) :
    List String × CatCache :=
  match resp with
  | .failure => ([], cache)
  | .success pages => pages.foldl checkBatchPage ([], cache)

/-- Helper for `chunksOf`: `cur` is the current chunk reversed, `k` the
number of slots left in it. -/
def chunksAux (n : Nat) : List String → List String → Nat → List (List String)
  | [], cur, _ => [cur.reverse]
  | x :: xs, cur, k =>
    match k with
    | 0 => cur.reverse :: chunksAux n xs [x] (n - 1)
    | k + 1 => chunksAux n xs (x :: cur) k

/-- Python `uncached[i:i+CATEGORY_BATCH_SIZE] for i in range(0, len, CATEGORY_BATCH_SIZE)`,
for a positive chunk size (the source uses 10). -/
def chunksOf (n : Nat) : List String → List (List String)
  | [] => []
  | x :: xs => chunksAux n xs [x] (n - 1)

/-- The `asyncio.gather` over `check_batch(batch) for batch in batches`
together with the `human_titles.extend(result)` loop: the chunk requests
run concurrently, but each task performs its cache writes after its single
await, so the write sequence is serialized; the model fixes the chunk order
as the schedule and also threads the running chunk index for the oracle. -/
def bccFold (oracle : Nat → List String → CatResponse) :
    List (List String) → List String × CatCache × Nat →
    List String × CatCache × Nat
  | [], acc => acc
  | batch :: rest, acc =>
    let r := checkBatch (oracle acc.2.2 batch) acc.2.1
    bccFold oracle rest (acc.1 ++ r.1, r.2, acc.2.2 + 1)

/-- `BidirectionalBFS._batch_check_categories`.  `oracle i chunk` is the
API's response to the query for the `i`-th chunk. -/
def batchCheckCategories (oracle : Nat → List String → CatResponse)
    (titles : List String) (cache : CatCache) : List String × CatCache :=
  if titles.isEmpty then ([], cache)
  else
    let vipHumans := titles.filter (fun t => VIP_ALLOWLIST.contains t)
    let remaining := titles.filter (fun t => !VIP_ALLOWLIST.contains t)
    let cachedHumans := remaining.filter (fun t => assocLookup cache t == some true)
    let uncached := remaining.filter (fun t => (assocLookup cache t).isNone)
    if uncached.isEmpty then (vipHumans ++ cachedHumans, cache)
    else
      let batches := chunksOf CATEGORY_BATCH_SIZE uncached
      let folded := bccFold oracle batches ([], cache, 0)
      (vipHumans ++ cachedHumans ++ folded.1, folded.2.1)

/-! ## Wiki client (`_get_page_data`, `_get_backlinks`)

A links response either fails (any exception in the `try` block: the code
returns `("", [])` and caches nothing) or succeeds with the extract, the
links of the single `pllimit=200` request, and whether the API offered a
`continue` token -- which the code ignores ("NO PAGINATION for speed").
The `Nat` component of the result counts the link requests issued. -/

inductive PageResponse
  | failure
  | success (extract : String) (links : List String) (hasContinue : Bool)
deriving Repr, DecidableEq

/-- `BidirectionalBFS._get_page_data`: returns `((extract, links), cache', linkRequests)`. -/
def getPageData (resp : PageResponse) (cache : PageCache) (title : String) :
    (String × List String) × PageCache × Nat :=
  match assocLookup cache title with
  | some entry => (entry, cache, 0)
  | none =>
    match resp with
    | .failure => (("", []), cache, 1)
    | .success extract links _hasContinue =>
      ((extract, links), assocInsert cache title (extract, links), 1)

inductive BlResponse
  | failure
  | success (links : List String)
deriving Repr, DecidableEq

/-- `BidirectionalBFS._get_backlinks`: single `bllimit=100` request; on
exception returns `[]` and caches nothing. -/
def getBacklinks (resp : BlResponse) (cache : BlCache) (title : String) :
    List String × BlCache :=
  match assocLookup cache title with
  | some entry => (entry, cache)
  | none =>
    match resp with
    | .failure => ([], cache)
    | .success links => (links, assocInsert cache title links)

example :
    (batchCheckCategories (fun _ _ => .failure) ["Alice Smith"] []).1 = [] := by decide

example :
    (batchCheckCategories
      (fun _ _ => .success [⟨"X", false, ["Category:Living people"]⟩]) ["Y"] []).1
    = ["X"] := by decide

/-! ## Search engine (`BidirectionalBFS.search`, `_process_node`,
`_reconstruct_path`, `find_shortest_path`)

The event stream of the asynchronous generator is modelled as a list of
events, each tagged with the `elapsed` clock value read at the head of the
loop iteration that produced it (the `info` event is tagged 0, and the
`not_found` event -- which the source emits without re-reading the clock --
is tagged with the oracle's reading for the iteration that found a queue
empty).  All external nondeterminism is a `SearchOracle`:
per-(iteration, node) page/backlink responses, the outcome of
`random.shuffle`, the per-chunk category responses, unexpected task
exceptions (the `except` branch of `_process_node` and exceptions collected
by `asyncio.gather`), and the wall clock. -/

inductive Direction
  | forward
  | backward
deriving Repr, DecidableEq

/-- Data observed during a search: raw link fetches (also served from
cache), raw backlink fetches, and the admitted children of each processed
node. -/
inductive ObsEntry
  | pageLinks (title : String) (links : List String)
  | backlinks (title : String) (links : List String)
  | childrenOf (dir : Direction) (node : String) (children : List String)
deriving Repr, DecidableEq

inductive Event
  | info
  | exploring (dir : Direction) (nodes : List String) (visited qf qb tm : Nat)
  | finished (path : List String)
  | notFound
  | error (msg : String)
deriving Repr, DecidableEq

/-- Terminal events of the stream. -/
def Event.isTerminal : Event → Bool
  | .finished _ => true
  | .notFound => true
  | .error _ => true
  | _ => false

structure SearchOracle where
  /-- Response to the links query of `_get_page_data` for `node` during
  iteration `s`. -/
  page : Nat → String → PageResponse
  /-- Response to the backlinks query of `_get_backlinks`. -/
  backlinks : Nat → String → BlResponse
  /-- Result of `random.shuffle` on the filtered candidate list. -/
  shuffle : Nat → String → List String → List String
  /-- Response to the category query for chunk `i` of the batch check run
  for `node` during iteration `s`. -/
  cat : Nat → String → Nat → List String → CatResponse
  /-- Unexpected exception inside `_process_node` (its `except` branch
  returns `None`) or a task exception collected by `asyncio.gather`. -/
  procFail : Nat → String → Bool
  /-- The `elapsed = time.time() - start_time` reading at the head of
  iteration `s`. -/
  elapsed : Nat → Nat

/-- Parent map of one frontier: child-to-parent bindings in insertion
order (earliest first; the root is the first entry and maps to `none`). -/
abbrev PM := List (String × Option String)

def pmKeys (pm : PM) : List String := pm.map Prod.fst

/-- Python `child in parent_map`. -/
def pmMem (pm : PM) (c : String) : Bool := pm.any (fun e => e.1 == c)

/-- Python `parent_map.get(current)`: `none` when absent (the walk in
`_reconstruct_path` treats an absent key and a `None` parent alike). -/
def pmLookup : PM → String → Option (Option String)
  | [], _ => none
  | e :: rest, c => if e.1 == c then some e.2 else pmLookup rest c

/-- Python `parent_map[child] = parent` for a fresh child (appended last to
record insertion order). -/
def pmInsert (pm : PM) (c : String) (p : Option String) : PM := pm ++ [(c, p)]

/-- The `while current is not None` walk of `_reconstruct_path`, producing
`[node, parent(node), ..., root]`.  The source's loop is unbounded; the
model uses explicit fuel, and the invariant theorems show that
`pm.length + 1` is always enough (the walk stabilizes). -/
def reconstructWalk : Nat → PM → String → List String
  | 0, _, _ => []
  | fuel + 1, pm, node =>
    node :: (match pmLookup pm node with
      | some (some p) => reconstructWalk fuel pm p
      | _ => [])

/-- `BidirectionalBFS._reconstruct_path`. -/
def reconstructPath (pm : PM) (node : String) (rev : Bool) : List String :=
  let path := reconstructWalk (pm.length + 1) pm node
  if rev then path else path.reverse

structure SearchState where
  queueF : List String
  queueB : List String
  parentF : PM
  parentB : PM
  stepCount : Nat
  pageCache : PageCache
  blCache : BlCache
  catCache : CatCache
  obs : List ObsEntry

/-- `BidirectionalBFS._process_node` for one node: fetch candidates
(forward links or backlinks), heuristic filter, shuffle, cap at
`MAX_CANDIDATES_TO_CHECK`, classify, cap at `MAX_DEGREE`.  Returns `none`
exactly when the oracle injects an unexpected exception. -/
def processNode (o : SearchOracle) (s : Nat) (node : String) (dir : Direction)
    (pc : PageCache) (bc : BlCache) (cc : CatCache) :
    Option (List String) × PageCache × BlCache × CatCache × List ObsEntry :=
  if o.procFail s node then (none, pc, bc, cc, [])
  else
    let fetched : List String × PageCache × BlCache × List ObsEntry :=
      match dir with
      | .forward =>
        let r := getPageData (o.page s node) pc node
        (r.1.2, r.2.1, bc, [.pageLinks node r.1.2])
      | .backward =>
        let r := getBacklinks (o.backlinks s node) bc node
        (r.1, pc, r.2, [.backlinks node r.1])
    let filtered := heuristicFilter fetched.1
    let shuffled := o.shuffle s node filtered
    let candidatesToCheck := shuffled.take MAX_CANDIDATES_TO_CHECK
    let checked := batchCheckCategories (o.cat s node) candidatesToCheck cc
    let children := checked.1.take MAX_DEGREE
    (some children, fetched.2.1, fetched.2.2.1, checked.2,
      fetched.2.2.2 ++ [.childrenOf dir node children])

/-- The per-level `asyncio.gather` of `search`: each node of the batch is
processed and failures (`None` results, collected exceptions) are skipped.
Cache writes of the tasks are serialized in task order, which is one of the
schedules the single-threaded event loop can produce. -/
def processLevel (o : SearchOracle) (s : Nat) (dir : Direction) :
    List String → PageCache → BlCache → CatCache →
    List (String × List String) × PageCache × BlCache × CatCache × List ObsEntry
  | [], pc, bc, cc => ([], pc, bc, cc, [])
  | n :: rest, pc, bc, cc =>
    let r := processNode o s n dir pc bc cc
    let rs := processLevel o s dir rest r.2.1 r.2.2.1 r.2.2.2.1
    ((match r.1 with
      | some children => [(n, children)]
      | none => []) ++ rs.1,
     rs.2.1, rs.2.2.1, rs.2.2.2.1, r.2.2.2.2 ++ rs.2.2.2.2)

/-- Outcome of merging a level's results into the expanding frontier:
either the loop continues with the grown queue and parent map, or a child
`c` was found in the opposite parent map (the frontiers met). -/
inductive MergeOut
  | more (queue : List String) (pOwn : PM)
  | met (child : String) (queue : List String) (pOwn : PM)
deriving Repr

/-- The inner `for child in children` loop of `search`: skip already
discovered children, otherwise record the parent, append to the queue, and
stop at the first child present in the other parent map. -/
def mergeChildren (pOther : PM) (node : String) :
    List String → List String → PM → MergeOut
  | [], q, pOwn => .more q pOwn
  | child :: rest, q, pOwn =>
    if pmMem pOwn child then mergeChildren pOther node rest q pOwn
    else
      let pOwn' := pmInsert pOwn child (some node)
      let q' := q ++ [child]
      if pmMem pOther child then .met child q' pOwn'
      else mergeChildren pOther node rest q' pOwn'

/-- The outer `for i, result in enumerate(results)` loop of `search`. -/
def mergeResults (pOther : PM) :
    List (String × List String) → List String → PM → MergeOut
  | [], q, p => .more q p
  | (n, cs) :: rest, q, p =>
    match mergeChildren pOther n cs q p with
    | .more q' p' => mergeResults pOther rest q' p'
    | .met c q' p' => .met c q' p'

/-- Outcome of one iteration of the `while` loop of `search`. -/
inductive StepOut
  | halt (evts : List (Nat × Event)) (st : SearchState)
  | next (evts : List (Nat × Event)) (st : SearchState)

/-- One iteration of the `while self.queue_f and self.queue_b` loop of
`search`, including the loop-condition test itself (an empty queue ends the
search with `not_found`). -/
def searchStep (o : SearchOracle) (st : SearchState) : StepOut :=
  if st.queueF.isEmpty || st.queueB.isEmpty then
    .halt [(o.elapsed st.stepCount, .notFound)] st
  else
    let elapsed := o.elapsed st.stepCount
    if TIMEOUT_SECONDS < elapsed then
      .halt [(elapsed, .error "timeout")] st
    else
      let totalVisited := st.parentF.length + st.parentB.length
      if MAX_NODES_VISITED < totalVisited then
        .halt [(elapsed, .error "limit")] st
      else
        let stepCount' := st.stepCount + 1
        let dir : Direction :=
          if st.queueF.length ≤ st.queueB.length then .forward else .backward
        let queue := match dir with
          | .forward => st.queueF
          | .backward => st.queueB
        let levelNodes := queue.take BATCH_SIZE
        let qRest := queue.drop BATCH_SIZE
        let qfShown := match dir with
          | .forward => qRest.length
          | .backward => st.queueF.length
        let qbShown := match dir with
          | .forward => st.queueB.length
          | .backward => qRest.length
        let evExp : Nat × Event :=
          (elapsed, .exploring dir levelNodes totalVisited qfShown qbShown elapsed)
        let lvl := processLevel o st.stepCount dir levelNodes
          st.pageCache st.blCache st.catCache
        let results := lvl.1
        let obs' := st.obs ++ lvl.2.2.2.2
        let pOwn := match dir with
          | .forward => st.parentF
          | .backward => st.parentB
        let pOther := match dir with
          | .forward => st.parentB
          | .backward => st.parentF
        match mergeResults pOther results qRest pOwn with
        | .more q' pOwn' =>
          let st' : SearchState := match dir with
            | .forward =>
              { st with
                queueF := q'
                parentF := pOwn'
                stepCount := stepCount'
                pageCache := lvl.2.1
                blCache := lvl.2.2.1
                catCache := lvl.2.2.2.1
                obs := obs' }
            | .backward =>
              { st with
                queueB := q'
                parentB := pOwn'
                stepCount := stepCount'
                pageCache := lvl.2.1
                blCache := lvl.2.2.1
                catCache := lvl.2.2.2.1
                obs := obs' }
          if MAX_STEP_COUNT < stepCount' then
            .halt [evExp, (elapsed, .error "depth")] st'
          else .next [evExp] st'
        | .met c q' pOwn' =>
          let st' : SearchState := match dir with
            | .forward =>
              { st with
                queueF := q'
                parentF := pOwn'
                stepCount := stepCount'
                pageCache := lvl.2.1
                blCache := lvl.2.2.1
                catCache := lvl.2.2.2.1
                obs := obs' }
            | .backward =>
              { st with
                queueB := q'
                parentB := pOwn'
                stepCount := stepCount'
                pageCache := lvl.2.1
                blCache := lvl.2.2.1
                catCache := lvl.2.2.2.1
                obs := obs' }
          let pathF := reconstructPath st'.parentF c false
          let pathB := reconstructPath st'.parentB c true
          let fullPath := pathF.dropLast ++ pathB
          .halt [evExp, (elapsed, .finished fullPath)] st'

/-- The `while` loop of `search`.  The fuel only serves to convince Lean of
termination; the depth-limit check makes `MAX_STEP_COUNT + 1` always
sufficient (proved below), so the `0` branch is unreachable from
`searchInit`. -/
def searchLoop (o : SearchOracle) : Nat → SearchState → List (Nat × Event) × SearchState
  | 0, st => ([], st)
  | fuel + 1, st =>
    match searchStep o st with
    | .halt evts st' => (evts, st')
    | .next evts st' =>
      let r := searchLoop o fuel st'
      (evts ++ r.1, r.2)

/-- The state set up by `search` before entering its loop. -/
def searchInit (startNode endNode : String)
    (pc : PageCache) (bc : BlCache) (cc : CatCache) : SearchState :=
  { queueF := [startNode], queueB := [endNode],
    parentF := [(startNode, none)], parentB := [(endNode, none)],
    stepCount := 0, pageCache := pc, blCache := bc, catCache := cc, obs := [] }

/-- `BidirectionalBFS.search` / `find_shortest_path` (the public generator
forwards every message of `search` unchanged): the full tagged event
stream and the final search state.  The caches at entry are the
module-level caches, passed in explicitly. -/
def search (o : SearchOracle) (startNode endNode : String)
    (pc : PageCache) (bc : BlCache) (cc : CatCache) :
    List (Nat × Event) × SearchState :=
  let r := searchLoop o (MAX_STEP_COUNT + 1) (searchInit startNode endNode pc bc cc)
  ((0, .info) :: r.1, r.2)

/-- The untagged event stream of `find_shortest_path`. -/
def searchEvents (o : SearchOracle) (startNode endNode : String)
    (pc : PageCache) (bc : BlCache) (cc : CatCache) : List Event :=
  (search o startNode endNode pc bc cc).1.map Prod.snd

/-! ## Invariants and auxiliary predicates -/

/-- Conformance of a category oracle: every page reported by a successful
response carries a title from the queried chunk.  This is exactly the
redirect-free regime; `redirects=1` lets the real API report a page under a
title absent from the query. -/
def CatConform (oracle : Nat → List String → CatResponse) : Prop :=
  ∀ i batch pages, oracle i batch = .success pages → ∀ p ∈ pages, p.title ∈ batch

/-- Tameness of a search oracle: `random.shuffle` permutes (here: only
membership preservation is needed), and all category responses report only
queried titles. -/
def OracleTame (o : SearchOracle) : Prop :=
  (∀ s n l, ∀ x ∈ o.shuffle s n l, x ∈ l) ∧ (∀ s n, CatConform (o.cat s n))

/-- An edge of the claim's observed-data relation: `y` occurs among the
outgoing links fetched for `x`, or `x` occurs among the backlinks fetched
for `y`. -/
def observedEdge (obs : List ObsEntry) (x y : String) : Bool :=
  obs.any (fun entry => match entry with
    | .pageLinks t ls => t == x && ls.contains y
    | _ => false)
  || obs.any (fun entry => match entry with
    | .backlinks t ls => t == y && ls.contains x
    | _ => false)

/-- Helper for `PMOrdered`: every binding's parent occurs among `seen`
(the keys inserted before it). -/
def PMOrderedAux : List String → PM → Prop
  | _, [] => True
  | seen, entry :: rest =>
    (∀ p, entry.2 = some p → p ∈ seen) ∧ PMOrderedAux (seen ++ [entry.1]) rest

/-- Every non-root binding's parent was inserted strictly earlier. -/
def PMOrdered (pm : PM) : Prop := PMOrderedAux [] pm

/-- Well-formedness of one frontier's parent map: keys are distinct, the
root is the first entry and maps to `none`, it is the only binding to
`none`, and every parent pointer goes to an earlier key. -/
structure PMGood (root : String) (pm : PM) : Prop where
  nodup : (pmKeys pm).Nodup
  headEq : pm.head? = some (root, none)
  rootOnly : ∀ c po, (c, po) ∈ pm → po = none → c = root
  ordered : PMOrdered pm

/-- Position of the binding of `c` in the parent map (length if absent). -/
def keyIdx : PM → String → Nat
  | [], _ => 0
  | entry :: rest, c => if entry.1 == c then 0 else keyIdx rest c + 1

/-- The invariant of `search` maintained at every loop head: queues are
contained in their parent maps' key sets, both parent maps are well-formed
forests rooted at the endpoints, every non-root binding is justified by an
observed children record, and (for distinct endpoints) the two key sets are
disjoint. -/
structure SearchInv (startNode endNode : String) (st : SearchState) : Prop where
  qF : ∀ t ∈ st.queueF, t ∈ pmKeys st.parentF
  qB : ∀ t ∈ st.queueB, t ∈ pmKeys st.parentB
  goodF : PMGood startNode st.parentF
  goodB : PMGood endNode st.parentB
  provF : ∀ c p, (c, some p) ∈ st.parentF →
    ∃ cs, ObsEntry.childrenOf .forward p cs ∈ st.obs ∧ c ∈ cs
  provB : ∀ c p, (c, some p) ∈ st.parentB →
    ∃ cs, ObsEntry.childrenOf .backward p cs ∈ st.obs ∧ c ∈ cs
  disj : startNode ≠ endNode →
    ∀ t, t ∈ pmKeys st.parentF → t ∈ pmKeys st.parentB → False

/-- Every key of either frontier's parent map is one of the two roots or
passes the heuristic filter. -/
def KeepInv (startNode endNode : String) (st : SearchState) : Prop :=
  ∀ t, (t ∈ pmKeys st.parentF ∨ t ∈ pmKeys st.parentB) →
    t = startNode ∨ t = endNode ∨ heuristicKeep t = true

/-- Every admitted child recorded in the observation log occurs in the
corresponding raw fetch recorded there. -/
def ObsGood (obs : List ObsEntry) : Prop :=
  ∀ dir n cs, ObsEntry.childrenOf dir n cs ∈ obs → ∀ c ∈ cs,
    match dir with
    | Direction.forward => ∃ ls, ObsEntry.pageLinks n ls ∈ obs ∧ c ∈ ls
    | Direction.backward => ∃ ls, ObsEntry.backlinks n ls ∈ obs ∧ c ∈ ls

/-- States reachable by continuing iterations of the search loop. -/
inductive Reaches (o : SearchOracle) : SearchState → SearchState → Prop
  | refl (st : SearchState) : Reaches o st st
  | step {st st' st'' : SearchState} {evts : List (Nat × Event)} :
      searchStep o st = .next evts st' → Reaches o st' st'' → Reaches o st st''

/-- A sequence of Human Classifier calls within one process run, threading
the category cache (`batch_check_categories` is the only writer of
`_category_cache`). -/
def classifierCalls :
    List ((Nat → List String → CatResponse) × List String) → CatCache → CatCache
  | [], cache => cache
  | call :: rest, cache =>
    classifierCalls rest (batchCheckCategories call.1 call.2 cache).2

/-! ## Spec-modelled constants and definitions

The following have no counterpart in `backend/bfs.py`; they are modelled
from the specification's words so that the corresponding claims can be
stated and compared against the code. -/

/-- Modelled from the spec: `HARD_TIMEOUT` [45-100 s], the watchdog
deadline of spec 4.6.  No watchdog or hard deadline exists in the code;
the largest value of the spec's range is used. -/
def HARD_TIMEOUT : Nat := 100

/-- Modelled from the spec: `MIN_HUMANS_FOR_EARLY_EXIT` [25-30], the
early-exit threshold of the smart pagination of spec 4.3.  The code has no
such constant. -/
def MIN_HUMANS_FOR_EARLY_EXIT : Nat := 25

/-- Modelled from the spec: `FALLBACK_NODE_CAP` [15-20], the `k` of the
classifier's graceful-degradation fallback (spec 4.2).  The code has no
such constant. -/
def FALLBACK_NODE_CAP : Nat := 15

/-- Modelled from the spec: the graceful-degradation fallback output
`VIP_in_batch ++ first_k(R \ VIP_in_batch)` that the classifier is claimed
to return on timeout or unexpected error. -/
def specC3Fallback (k : Nat) (titles : List String) : List String :=
  titles.filter (fun t => VIP_ALLOWLIST.contains t) ++
    (titles.filter (fun t => !VIP_ALLOWLIST.contains t)).take k

/-- Modelled from the spec: the smart-pagination behavior claimed of
`get_page_data` -- when the response offers a continuation token and fewer
than `MIN_HUMANS_FOR_EARLY_EXIT` heuristically admissible links have been
fetched, a further page request is issued. -/
def specSmartPagination : Prop :=
  ∀ (extract : String) (links : List String) (cache : PageCache) (title : String),
    assocLookup cache title = none →
    (heuristicFilter links).length < MIN_HUMANS_FOR_EARLY_EXIT →
    2 ≤ (getPageData (.success extract links true) cache title).2.2

/-! ## Concrete oracles used by witnesses and counterexamples -/

/-- Oracle on which every request fails, the shuffle is the identity, all
clock readings are 0, and no task raises. -/
def allFailOracle : SearchOracle :=
  { page := fun _ _ => .failure
    backlinks := fun _ _ => .failure
    shuffle := fun _ _ l => l
    cat := fun _ _ _ _ => .failure
    procFail := fun _ _ => false
    elapsed := fun _ => 0 }

/-- Oracle of a one-hop success: the start page links to the VIP end
page, every category query fails (the child is admitted via the VIP fast
lane). -/
def finishOracle : SearchOracle :=
  { allFailOracle with
    page := fun _ n => if n == "Aaa" then .success "" ["Elon Musk"] false else .failure }

/-- Oracle of a redirect-retitled run: the category query on the link
`"Yyy"` of the start page reports the page under the different title
`"Xxx"`, which then links to the VIP end page. -/
def redirectOracle : SearchOracle :=
  { allFailOracle with
    page := fun _ n =>
      if n == "Aaa" then .success "" ["Yyy"] false
      else if n == "Xxx" then .success "" ["Elon Musk"] false
      else .failure
    cat := fun _ n _ batch =>
      if n == "Aaa" && batch == ["Yyy"] then
        .success [⟨"Xxx", false, ["Category:Living people"]⟩]
      else .failure }

/-- Oracle of a degenerate `start = end` run: the endpoint links forward
to two humans and has one of them as a backlink, so the second iteration
expands backward and meets. -/
def loopOracle : SearchOracle :=
  { allFailOracle with
    page := fun _ n =>
      if n == "Aaa" then .success "" ["Bob Smith", "Carol Jones"] false else .failure
    backlinks := fun _ n => if n == "Aaa" then .success ["Bob Smith"] else .failure
    cat := fun _ _ _ batch =>
      .success (batch.map (fun t => ⟨t, false, ["Category:Living people"]⟩)) }

/-- Oracle of a stalled iteration: the second loop head reads an elapsed
clock of 1000000 seconds. -/
def slowClockOracle : SearchOracle :=
  { allFailOracle with
    page := fun _ n => if n == "Aaa" then .success "" ["Elon Musk"] false else .failure
    elapsed := fun s => if s == 0 then 0 else 1000000 }

/-- Category oracle reporting every queried title as a living person
(conforming: reported titles are exactly the queried chunk). -/
def conformOracle : Nat → List String → CatResponse :=
  fun _ batch => .success (batch.map (fun t => ⟨t, false, ["Category:Living people"]⟩))

/-- Category oracle reporting, for any query, the page `"Xxx"` with
human categories (as the resolution of a redirect). -/
def retitleHumanOracle : Nat → List String → CatResponse :=
  fun _ _ => .success [⟨"Xxx", false, ["Category:Living people"]⟩]

/-- Category oracle reporting, for any query, the page `"Xxx"` as missing
(as the resolution of a redirect to a deleted page). -/
def retitleMissingOracle : Nat → List String → CatResponse :=
  fun _ _ => .success [⟨"Xxx", true, []⟩]

/-! ## Lemmas: chunking and association lists -/

theorem chunksAux_flatten (n : Nat) :
    ∀ (xs cur : List String) (k : Nat),
      (chunksAux n xs cur k).flatten = cur.reverse ++ xs
  | [], cur, k => by simp [chunksAux]
  | x :: xs, cur, 0 => by
    simp [chunksAux, chunksAux_flatten n xs [x] (n - 1)]
  | x :: xs, cur, k + 1 => by
    simp [chunksAux, chunksAux_flatten n xs (x :: cur) k]

theorem chunksOf_flatten (n : Nat) (l : List String) :
    (chunksOf n l).flatten = l := by
  cases l with
  | nil => rfl
  | cons x xs => simpa using chunksAux_flatten n xs [x] (n - 1)

theorem mem_of_mem_chunksOf {n : Nat} {l : List String} {b : List String}
    {t : String} (hb : b ∈ chunksOf n l) (ht : t ∈ b) : t ∈ l := by
  have : t ∈ (chunksOf n l).flatten := List.mem_flatten.2 ⟨b, hb, ht⟩
  rwa [chunksOf_flatten] at this

theorem assocLookup_insert_self {β : Type} (d : List (String × β)) (k : String) (v : β) :
    assocLookup (assocInsert d k v) k = some v := by
  simp [assocInsert, assocLookup]

theorem assocLookup_insert_ne {β : Type} (d : List (String × β)) (k k' : String) (v : β)
    (h : k ≠ k') : assocLookup (assocInsert d k v) k' = assocLookup d k' := by
  simp [assocInsert, assocLookup, h]

/-! ## Lemmas: `check_batch` -/

theorem checkBatchPage_mem (acc : List String × CatCache) (page : CatPage)
    {t : String} (ht : t ∈ (checkBatchPage acc page).1) :
    t ∈ acc.1 ∨ t = page.title := by
  unfold checkBatchPage at ht
  split at ht
  · exact Or.inl ht
  · dsimp at ht
    split at ht
    · rcases List.mem_append.1 ht with h | h
      · exact Or.inl h
      · simpa using Or.inr (List.mem_singleton.1 h)
    · exact Or.inl ht

theorem checkBatchPage_lookup (acc : List String × CatCache) (page : CatPage)
    {t : String} (ht : t ≠ page.title) :
    assocLookup (checkBatchPage acc page).2 t = assocLookup acc.2 t := by
  unfold checkBatchPage
  split
  · exact assocLookup_insert_ne _ _ _ _ (fun h => ht h.symm)
  · exact assocLookup_insert_ne _ _ _ _ (fun h => ht h.symm)

theorem foldl_checkBatchPage_mem :
    ∀ (pages : List CatPage) (acc : List String × CatCache) (t : String),
      t ∈ (pages.foldl checkBatchPage acc).1 →
      t ∈ acc.1 ∨ t ∈ pages.map CatPage.title
  | [], acc, t, ht => Or.inl ht
  | page :: pages, acc, t, ht => by
    rcases foldl_checkBatchPage_mem pages (checkBatchPage acc page) t ht with h | h
    · rcases checkBatchPage_mem acc page h with h' | h'
      · exact Or.inl h'
      · exact Or.inr (by simp [h'])
    · exact Or.inr (by simp [h])

theorem foldl_checkBatchPage_lookup :
    ∀ (pages : List CatPage) (acc : List String × CatCache) (t : String),
      t ∉ pages.map CatPage.title →
      assocLookup (pages.foldl checkBatchPage acc).2 t = assocLookup acc.2 t
  | [], _, _, _ => rfl
  | page :: pages, acc, t, ht => by
    have h1 : t ∉ pages.map CatPage.title := fun h => ht (by simp [h])
    have h2 : t ≠ page.title := fun h => ht (by simp [h])
    rw [List.foldl_cons, foldl_checkBatchPage_lookup pages _ t h1,
      checkBatchPage_lookup acc page h2]

theorem checkBatch_failure (cache : CatCache) :
    checkBatch .failure cache = ([], cache) := rfl

theorem checkBatch_mem {resp : CatResponse} {cache : CatCache} {t : String}
    (ht : t ∈ (checkBatch resp cache).1) :
    ∃ pages, resp = .success pages ∧ t ∈ pages.map CatPage.title := by
  cases resp with
  | failure => simp [checkBatch] at ht
  | success pages =>
    refine ⟨pages, rfl, ?_⟩
    rcases foldl_checkBatchPage_mem pages ([], cache) t ht with h | h
    · simp at h
    · exact h

theorem checkBatch_lookup {resp : CatResponse} {cache : CatCache} {t : String}
    (ht : ∀ pages, resp = .success pages → t ∉ pages.map CatPage.title) :
    assocLookup (checkBatch resp cache).2 t = assocLookup cache t := by
  cases resp with
  | failure => rfl
  | success pages =>
    exact foldl_checkBatchPage_lookup pages ([], cache) t (ht pages rfl)

/-! ## Lemmas: `_batch_check_categories` -/

theorem bccFold_mem {oracle : Nat → List String → CatResponse}
    (hcf : CatConform oracle) :
    ∀ (batches : List (List String)) (acc : List String × CatCache × Nat)
      (t : String), t ∈ (bccFold oracle batches acc).1 →
      t ∈ acc.1 ∨ ∃ b ∈ batches, t ∈ b
  | [], acc, t, ht => Or.inl ht
  | batch :: rest, acc, t, ht => by
    rcases bccFold_mem hcf rest _ t ht with h | h
    · rcases List.mem_append.1 h with h' | h'
      · exact Or.inl h'
      · rcases checkBatch_mem h' with ⟨pages, hp, hmem⟩
        rcases List.mem_map.1 hmem with ⟨page, hpage, hteq⟩
        exact Or.inr ⟨batch, by simp, hteq ▸ hcf _ _ _ hp page hpage⟩
    · rcases h with ⟨b, hb, htb⟩
      exact Or.inr ⟨b, by simp [hb], htb⟩

theorem bccFold_lookup {oracle : Nat → List String → CatResponse}
    (hcf : CatConform oracle) :
    ∀ (batches : List (List String)) (acc : List String × CatCache × Nat)
      (t : String), (∀ b ∈ batches, t ∉ b) →
      assocLookup (bccFold oracle batches acc).2.1 t = assocLookup acc.2.1 t
  | [], _, _, _ => rfl
  | batch :: rest, acc, t, ht => by
    have hstep : assocLookup (checkBatch (oracle acc.2.2 batch) acc.2.1).2 t
        = assocLookup acc.2.1 t := by
      refine checkBatch_lookup (fun pages hp hmem => ?_)
      rcases List.mem_map.1 hmem with ⟨page, hpage, hteq⟩
      exact ht batch (by simp) (hteq ▸ hcf _ _ _ hp page hpage)
    rw [bccFold, bccFold_lookup hcf rest _ t (fun b hb => ht b (by simp [hb]))]
    exact hstep

theorem bccFold_const_failure :
    ∀ (batches : List (List String)) (acc : List String × CatCache × Nat),
      bccFold (fun _ _ => .failure) batches acc
        = (acc.1, acc.2.1, acc.2.2 + batches.length)
  | [], acc => by simp [bccFold]
  | batch :: rest, acc => by
    rw [bccFold]
    simp only [checkBatch_failure]
    rw [bccFold_const_failure rest]
    simp
    omega

theorem bccFold_avoid {oracle : Nat → List String → CatResponse} {t : String}
    (hcf : CatConform oracle)
    (hfail : ∀ i b, t ∈ b → oracle i b = .failure) :
    ∀ (batches : List (List String)) (acc : List String × CatCache × Nat),
      (t ∉ acc.1 → t ∉ (bccFold oracle batches acc).1) ∧
      assocLookup (bccFold oracle batches acc).2.1 t = assocLookup acc.2.1 t
  | [], acc => ⟨fun h => h, rfl⟩
  | batch :: rest, acc => by
    have hstep1 : t ∉ acc.1 → t ∉ acc.1 ++ (checkBatch (oracle acc.2.2 batch) acc.2.1).1 := by
      intro hna hmem
      rcases List.mem_append.1 hmem with h | h
      · exact hna h
      · rcases checkBatch_mem h with ⟨pages, hp, hmem'⟩
        rcases List.mem_map.1 hmem' with ⟨page, hpage, hteq⟩
        have htb : t ∈ batch := hteq ▸ hcf _ _ _ hp page hpage
        rw [hfail _ _ htb] at hp
        exact CatResponse.noConfusion hp
    have hstep2 : assocLookup (checkBatch (oracle acc.2.2 batch) acc.2.1).2 t
        = assocLookup acc.2.1 t := by
      refine checkBatch_lookup (fun pages hp hmem => ?_)
      rcases List.mem_map.1 hmem with ⟨page, hpage, hteq⟩
      have htb : t ∈ batch := hteq ▸ hcf _ _ _ hp page hpage
      rw [hfail _ _ htb] at hp
      exact CatResponse.noConfusion hp
    have ih := bccFold_avoid hcf hfail rest
      (acc.1 ++ (checkBatch (oracle acc.2.2 batch) acc.2.1).1,
       (checkBatch (oracle acc.2.2 batch) acc.2.1).2, acc.2.2 + 1)
    exact ⟨fun hna => ih.1 (hstep1 hna),
      by rw [bccFold]; exact ih.2.trans hstep2⟩

theorem bcc_subset {oracle : Nat → List String → CatResponse}
    (hcf : CatConform oracle) (titles : List String) (cache : CatCache)
    {t : String} (ht : t ∈ (batchCheckCategories oracle titles cache).1) :
    t ∈ titles := by
  unfold batchCheckCategories at ht
  split at ht
  · simp at ht
  · dsimp only at ht
    split at ht
    · rcases List.mem_append.1 ht with h | h
      · exact (List.mem_filter.1 h).1
      · exact (List.mem_filter.1 (List.mem_filter.1 h).1).1
    · rcases List.mem_append.1 ht with h | h
      · rcases List.mem_append.1 h with h' | h'
        · exact (List.mem_filter.1 h').1
        · exact (List.mem_filter.1 (List.mem_filter.1 h').1).1
      · rcases bccFold_mem hcf _ _ _ h with h'' | ⟨b, hb, htb⟩
        · simp at h''
        · exact (List.mem_filter.1
            (List.mem_filter.1 (mem_of_mem_chunksOf hb htb)).1).1


theorem bcc_persist {oracle : Nat → List String → CatResponse}
    (hcf : CatConform oracle) (titles : List String) (cache : CatCache)
    {t : String} {v : Bool} (hv : assocLookup cache t = some v) :
    assocLookup (batchCheckCategories oracle titles cache).2 t = some v := by
  unfold batchCheckCategories
  split
  · exact hv
  · dsimp only
    split
    · exact hv
    · have hnb : ∀ b ∈ chunksOf CATEGORY_BATCH_SIZE
          ((titles.filter (fun x => !VIP_ALLOWLIST.contains x)).filter
            (fun x => (assocLookup cache x).isNone)), t ∉ b := by
        intro b hb htb
        have := (List.mem_filter.1 (mem_of_mem_chunksOf hb htb)).2
        rw [hv] at this
        simp at this
      simpa using (bccFold_lookup hcf _ _ t hnb).trans hv

theorem bcc_avoid {oracle : Nat → List String → CatResponse}
    (hcf : CatConform oracle) {t : String}
    (hfail : ∀ i b, t ∈ b → oracle i b = .failure)
    (hvip : VIP_ALLOWLIST.contains t = false)
    (titles : List String) (cache : CatCache)
    (hnone : assocLookup cache t = none) :
    assocLookup (batchCheckCategories oracle titles cache).2 t = none ∧
      t ∉ (batchCheckCategories oracle titles cache).1 := by
  have hnvip : t ∉ titles.filter (fun x => VIP_ALLOWLIST.contains x) := by
    intro h
    rw [(List.mem_filter.1 h).2] at hvip
    exact Bool.noConfusion hvip
  have hncached : t ∉ (titles.filter (fun x => !VIP_ALLOWLIST.contains x)).filter
      (fun x => assocLookup cache x == some true) := by
    intro h
    have := (List.mem_filter.1 h).2
    rw [hnone] at this
    simp at this
  unfold batchCheckCategories
  split
  · exact ⟨hnone, by simp⟩
  · dsimp only
    split
    · exact ⟨hnone, fun h => (List.mem_append.1 h).elim (hnvip ·) (hncached ·)⟩
    · have havoid := bccFold_avoid hcf hfail
        (chunksOf CATEGORY_BATCH_SIZE
          ((titles.filter (fun x => !VIP_ALLOWLIST.contains x)).filter
            (fun x => (assocLookup cache x).isNone)))
        ([], cache, 0)
      refine ⟨havoid.2.trans hnone, fun h => ?_⟩
      rcases List.mem_append.1 h with h' | h'
      · rcases List.mem_append.1 h' with h'' | h''
        · exact hnvip h''
        · exact hncached h''
      · exact havoid.1 (by simp) h'

theorem conformOracle_conform : CatConform conformOracle := by
  intro i batch pages h p hp
  cases h
  rcases List.mem_map.1 hp with ⟨t, htb, rfl⟩
  exact htb

theorem failureOracle_conform :
    CatConform (fun _ _ => CatResponse.failure) := by
  intro i batch pages h
  exact CatResponse.noConfusion h

theorem heuristicKeep_eq (t : String) :
    heuristicKeep t
      = (!headIsDigit t && !strStarts t "List of"
          && !(META_PAGE_PATTERNS.any (fun p => strContains (strLower t) p))) := by
  unfold heuristicKeep
  by_cases h1 : headIsDigit t <;>
    by_cases h2 : strStarts t "List of" <;>
    by_cases h3 : META_PAGE_PATTERNS.any (fun p => strContains (strLower t) p) <;>
    simp [h1, h2, h3]

theorem heuristicKeep_iff (t : String) :
    heuristicKeep t = true ↔
      ¬(headIsDigit t = true ∨ strStarts t "List of" = true ∨
        ∃ pat ∈ META_PAGE_PATTERNS, strContains (strLower t) pat = true) := by
  rw [heuristicKeep_eq]
  simp [not_or, List.any_eq_true, and_assoc]

/-- C6 (amended).  The heuristic filter keeps exactly the input titles, in
input order (a sublist of the input), that are not rejected; a title is
rejected iff its first character is a digit (so an empty title is kept),
or it starts with the literal `"List of"`, or its lower-casing contains one
of the `META_PAGE_PATTERNS` substrings -- a set consisting of the namespace
prefixes and topic tokens only, with no parenthetical qualifiers such as
`(software)` or `(band)`.  The filter is a pure function. -/
theorem c6_heuristic_filter_characterization (l : List String) (t : String) :
    (t ∈ heuristicFilter l ↔ t ∈ l ∧
      ¬(headIsDigit t = true ∨ strStarts t "List of" = true ∨
        ∃ pat ∈ META_PAGE_PATTERNS, strContains (strLower t) pat = true)) ∧
    List.Sublist (heuristicFilter l) l := by
  constructor
  · rw [heuristicFilter, List.mem_filter, heuristicKeep_iff]
  · exact List.filter_sublist l

/-- C6 counterexample.  The claim states that the filter rejects empty
titles and titles with parenthetical qualifiers such as `(band)`; the code
keeps both: the empty title fails Python's truthiness guard in the digit
rule, and the code's `META_PAGE_PATTERNS` contains no parenthetical
qualifiers. -/
theorem c6_counterexample_empty_and_parenthetical :
    heuristicFilter ["", "Queen (band)"] = ["", "Queen (band)"] ∧
    ("" : String).data = [] ∧
    strContains (strLower "Queen (band)") "(band)" = true := by decide

/-- C3 (amended).  The classifier has no per-call timeout wrapper (each
HTTP request only carries the client-level 10 s deadline), and on a failed
or erroring chunk request it returns no fallback sample: with every chunk
request failing, the call returns exactly the VIP members of the batch
followed by the cache-verified members, and the category cache is
unchanged -- in particular nothing is cached as `true`. -/
theorem c3_failure_returns_vip_and_cached (titles : List String) (cache : CatCache) :
    batchCheckCategories (fun _ _ => CatResponse.failure) titles cache
      = (titles.filter (fun t => VIP_ALLOWLIST.contains t)
          ++ (titles.filter (fun t => !VIP_ALLOWLIST.contains t)).filter
              (fun t => assocLookup cache t == some true),
         cache) := by
  unfold batchCheckCategories
  split
  · rename_i h
    rw [List.isEmpty_iff.1 h]
    simp
  · dsimp only
    split
    · rfl
    · rw [bccFold_const_failure]
      simp

/-- C3 counterexample.  For the batch `["Alice Smith"]` (not VIP, not
cached) with the chunk request failing, the code returns the empty list,
while the claimed fallback `VIP_in_batch ++ first_k(non-VIP)` would return
`["Alice Smith"]` for every `k ≥ 1` (shown for the spec's
`FALLBACK_NODE_CAP`); no `BATCH_CHECK_TIMEOUT` wrapper exists in the code. -/
theorem c3_counterexample_no_fallback_sample :
    batchCheckCategories (fun _ _ => CatResponse.failure) ["Alice Smith"] [] = ([], [])
    ∧ specC3Fallback FALLBACK_NODE_CAP ["Alice Smith"] = ["Alice Smith"] := by decide

/-- C5 (amended).  The VIP and cache-verified parts of the classifier's
output are always sublists of the input; the API-verified part consists of
the titles reported by the responses, so whenever every response page is
reported under a title of its queried chunk (no redirect retitling), the
whole output is a subset of the input batch. -/
theorem c5_output_subset_of_input (oracle : Nat → List String → CatResponse)
    (titles : List String) (cache : CatCache) (hcf : CatConform oracle) :
    ∀ t ∈ (batchCheckCategories oracle titles cache).1, t ∈ titles :=
  fun _ ht => bcc_subset hcf titles cache ht

theorem c5_output_subset_of_input_witness :
    "Alice Smith" ∈ (batchCheckCategories conformOracle ["Alice Smith"] []).1 ∧
    "Alice Smith" ∈ ["Alice Smith"] :=
  ⟨by decide,
   c5_output_subset_of_input conformOracle ["Alice Smith"] []
     conformOracle_conform "Alice Smith" (by decide)⟩

/-- C5 counterexample.  With `redirects=1` the API may report a page under
a different title than queried: for the input batch `["Yyy"]` and a
response reporting the human page `"Xxx"`, the classifier returns
`["Xxx"]`, which is not a subset of the input. -/
theorem c5_counterexample_redirect_title :
    (batchCheckCategories retitleHumanOracle ["Yyy"] []).1 = ["Xxx"] ∧
    "Xxx" ∉ (["Yyy"] : List String) := by decide

/-- C8 (amended).  A cached title is never re-queried, and under
redirect-free API behavior (every response reports only titles of its
queried chunk) every cache write of a classifier call targets a previously
uncached title; hence across any sequence of classifier calls in one
process run, a verdict present in the cache persists unchanged -- it never
flips.  With redirect retitling the code can overwrite (and flip) an
existing verdict, as the counterexample shows. -/
theorem c8_cached_verdicts_persist :
    ∀ (calls : List ((Nat → List String → CatResponse) × List String))
      (c0 : CatCache) (t : String) (v : Bool),
      (∀ call ∈ calls, CatConform call.1) →
      assocLookup c0 t = some v →
      assocLookup (classifierCalls calls c0) t = some v
  | [], _, _, _, _, hv => hv
  | call :: rest, c0, t, v, hcf, hv => by
    rw [classifierCalls]
    exact c8_cached_verdicts_persist rest _ t v
      (fun c hc => hcf c (by simp [hc]))
      (bcc_persist (hcf call (by simp)) call.2 c0 hv)

theorem c8_cached_verdicts_persist_witness :
    assocLookup (classifierCalls [(conformOracle, ["Yyy"])] [("Xxx", true)]) "Xxx"
      = some true :=
  c8_cached_verdicts_persist [(conformOracle, ["Yyy"])] [("Xxx", true)] "Xxx" true
    (fun call hc => by
      rw [List.mem_singleton.1 hc]
      exact conformOracle_conform)
    rfl

/-- C8 counterexample.  A category query on the uncached title `"Aab"`
whose response reports (via redirect resolution) the page `"Xxx"` as a
living person caches `true` for `"Xxx"`; a later query on `"Bba"` whose
response reports `"Xxx"` as missing overwrites the verdict with `false`
-- the verdict flips within one process run. -/
theorem c8_counterexample_redirect_flip :
    assocLookup (batchCheckCategories retitleHumanOracle ["Aab"] []).2 "Xxx"
      = some true ∧
    assocLookup
      (batchCheckCategories retitleMissingOracle ["Bba"]
        (batchCheckCategories retitleHumanOracle ["Aab"] []).2).2 "Xxx"
      = some false := by decide

/-- C10 (confirmed).  If every category request for a chunk containing `t`
fails (non-200 status, transport error, or malformed JSON all leave the
`try` block of `check_batch` before any page is processed), then after the
classifier call the uncached non-VIP title `t` is still uncached and absent
from the returned human set, provided the remaining successful responses
report only their own queried titles; the call itself returns normally
(it is a total function of the responses -- no exception propagates). -/
theorem c10_failed_chunk_uncached_and_omitted
    (oracle : Nat → List String → CatResponse) (titles : List String)
    (cache : CatCache) (t : String)
    (hcf : CatConform oracle)
    (hfail : ∀ i b, t ∈ b → oracle i b = .failure)
    (hvip : VIP_ALLOWLIST.contains t = false)
    (hnone : assocLookup cache t = none) :
    assocLookup (batchCheckCategories oracle titles cache).2 t = none ∧
      t ∉ (batchCheckCategories oracle titles cache).1 :=
  bcc_avoid hcf hfail hvip titles cache hnone

theorem c10_failed_chunk_uncached_and_omitted_witness :
    assocLookup
      (batchCheckCategories (fun _ _ => CatResponse.failure) ["Alice Smith"] []).2
      "Alice Smith" = none ∧
    "Alice Smith" ∉
      (batchCheckCategories (fun _ _ => CatResponse.failure) ["Alice Smith"] []).1 :=
  c10_failed_chunk_uncached_and_omitted (fun _ _ => CatResponse.failure)
    ["Alice Smith"] [] "Alice Smith" failureOracle_conform
    (fun _ _ _ => rfl) (by decide) rfl

/-- C4 (amended).  `_get_page_data` performs no pagination at all: it
issues at most one links request per call (zero on a page-cache hit, one on
a miss), never following a continuation token regardless of how few
heuristically admissible links were fetched, and on any request error it
returns `("", [])` without caching. -/
theorem c4_single_link_request_and_error_result
    (resp : PageResponse) (cache : PageCache) (title : String) :
    (getPageData resp cache title).2.2 ≤ 1 ∧
    (assocLookup cache title = none → resp = .failure →
      (getPageData resp cache title).1 = ("", [])) := by
  unfold getPageData
  rcases h : assocLookup cache title with _ | entry
  · cases resp <;> simp
  · simp

theorem c4_single_link_request_and_error_result_witness :
    (getPageData .failure [] "Foo").2.2 ≤ 1 ∧
    (getPageData .failure [] "Foo").1 = ("", []) :=
  ⟨(c4_single_link_request_and_error_result .failure [] "Foo").1,
   (c4_single_link_request_and_error_result .failure [] "Foo").2 rfl rfl⟩

/-- C4 counterexample.  The smart pagination claimed by the spec (a second
request when the API offers a continuation token and fewer than
`MIN_HUMANS_FOR_EARLY_EXIT` admissible links were fetched) does not hold of
the code: with a continuation token offered and zero admissible links
fetched, exactly one links request is issued. -/
theorem c4_counterexample_no_pagination : ¬ specSmartPagination := by
  intro h
  have h2 := h "" ["2024"] [] "Foo" rfl (by decide)
  have h3 : (getPageData (.success "" ["2024"] true) [] "Foo").2.2 = 1 := rfl
  omega

/-! ## Lemmas: parent maps -/

theorem pmMem_iff (pm : PM) (c : String) : pmMem pm c = true ↔ c ∈ pmKeys pm := by
  induction pm with
  | nil => simp [pmMem, pmKeys]
  | cons e rest ih =>
    simp only [pmMem, pmKeys, List.any_cons, List.map_cons, List.mem_cons,
      Bool.or_eq_true, beq_iff_eq] at *
    constructor
    · rintro (h | h)
      · exact Or.inl h.symm
      · exact Or.inr (ih.1 h)
    · rintro (h | h)
      · exact Or.inl h.symm
      · exact Or.inr (ih.2 h)

theorem pmLookup_isSome_iff (pm : PM) (c : String) :
    (pmLookup pm c).isSome = true ↔ c ∈ pmKeys pm := by
  induction pm with
  | nil => simp [pmLookup, pmKeys]
  | cons e rest ih =>
    simp only [pmLookup, pmKeys, List.map_cons, List.mem_cons]
    split
    · rename_i h
      simp [(beq_iff_eq.1 h).symm]
    · rename_i h
      simp only [Option.isSome] at *
      constructor
      · intro h'
        exact Or.inr (ih.1 h')
      · rintro (h' | h')
        · exact absurd (beq_iff_eq.2 h'.symm) (by simpa using h)
        · exact ih.2 h'

theorem pmLookup_mem_entry {pm : PM} {c : String} {po : Option String}
    (h : pmLookup pm c = some po) : (c, po) ∈ pm := by
  induction pm with
  | nil => exact absurd h (by simp [pmLookup])
  | cons e rest ih =>
    rw [pmLookup] at h
    split at h
    · rename_i he
      obtain rfl : e.2 = po := by injection h
      obtain rfl : e.1 = c := beq_iff_eq.1 he
      exact List.mem_cons_self _ _
    · exact List.mem_cons_of_mem _ (ih h)

theorem pmLookup_append_left {pm : PM} {c : String} (l : PM)
    (h : c ∈ pmKeys pm) : pmLookup (pm ++ l) c = pmLookup pm c := by
  induction pm with
  | nil => simp [pmKeys] at h
  | cons e rest ih =>
    simp only [List.cons_append, pmLookup]
    split
    · rfl
    · rename_i he
      refine ih ?_
      rcases List.mem_cons.1 h with h' | h'
      · exact absurd (beq_iff_eq.2 h'.symm) (by simpa using he)
      · exact h'

theorem pmLookup_append_right {pm : PM} {c : String} (l : PM)
    (h : c ∉ pmKeys pm) : pmLookup (pm ++ l) c = pmLookup l c := by
  induction pm with
  | nil => rfl
  | cons e rest ih =>
    simp only [List.cons_append, pmLookup]
    split
    · rename_i he
      exact absurd (by simp [pmKeys, beq_iff_eq.1 he]) h
    · exact ih (fun h' => h (by simp [pmKeys] at *; exact Or.inr h'))

theorem pmLookup_of_entry {pm : PM} {c : String} {po : Option String}
    (hnd : (pmKeys pm).Nodup) (h : (c, po) ∈ pm) : pmLookup pm c = some po := by
  induction pm with
  | nil => simp at h
  | cons e rest ih =>
    rw [pmLookup]
    rcases List.mem_cons.1 h with h' | h'
    · rw [← h']
      simp
    · have hne : ¬(e.1 == c) = true := by
        intro hb
        have hcrest : c ∈ pmKeys rest := by
          simpa [pmKeys] using List.mem_map_of_mem Prod.fst h'
        have hnotin : e.1 ∉ pmKeys rest := by
          have h2 := hnd
          simp [pmKeys, List.nodup_cons] at h2
          simpa [pmKeys] using h2.1
        rw [beq_iff_eq.1 hb] at hnotin
        exact hnotin hcrest
      rw [if_neg hne]
      refine ih ?_ h'
      have h2 := hnd
      simp [pmKeys, List.nodup_cons] at h2
      simpa [pmKeys] using h2.2

theorem pmLookup_prefix {pm pm' : PM} {c : String} {po : Option String}
    (hpre : pm <+: pm') (h : pmLookup pm c = some po) :
    pmLookup pm' c = some po := by
  rcases hpre with ⟨ext, rfl⟩
  have hc : c ∈ pmKeys pm := (pmLookup_isSome_iff pm c).1 (by simp [h])
  rw [pmLookup_append_left ext hc, h]

theorem keyIdx_pos_of_ne {e : String × Option String} {rest : PM} {c : String}
    (h : ¬(e.1 == c) = true) : keyIdx (e :: rest) c = keyIdx rest c + 1 := by
  simp [keyIdx, h]

theorem orderedAux_append (seen : List String) (pm : PM) (e : String × Option String) :
    PMOrderedAux seen (pm ++ [e]) ↔
      PMOrderedAux seen pm ∧ (∀ p, e.2 = some p → p ∈ seen ++ pmKeys pm) := by
  induction pm generalizing seen with
  | nil => simp [PMOrderedAux, pmKeys]
  | cons e0 rest ih =>
    constructor
    · intro h
      have h' : (∀ p, e0.2 = some p → p ∈ seen) ∧
          PMOrderedAux (seen ++ [e0.1]) (rest ++ [e]) := h
      obtain ⟨h0, hrest⟩ := h'
      obtain ⟨h1, h2⟩ := (ih (seen ++ [e0.1])).1 hrest
      refine ⟨⟨h0, h1⟩, fun p hp => ?_⟩
      have := h2 p hp
      simp [pmKeys] at this ⊢
      tauto
    · rintro ⟨⟨h0, h1⟩, h2⟩
      refine ⟨h0, (ih (seen ++ [e0.1])).2 ⟨h1, fun p hp => ?_⟩⟩
      have := h2 p hp
      simp [pmKeys] at this ⊢
      tauto

theorem orderedAux_lookup :
    ∀ (pm : PM) (seen : List String), PMOrderedAux seen pm →
      ∀ c p, pmLookup pm c = some (some p) →
        p ∈ seen ∨ (p ∈ pmKeys pm ∧ keyIdx pm p < keyIdx pm c)
  | [], _, _, c, p, h => absurd h (by simp [pmLookup])
  | e :: rest, seen, ⟨h0, hrest⟩, c, p, h => by
    rw [pmLookup] at h
    split at h
    · rename_i he
      refine Or.inl (h0 p ?_)
      injection h
    · rename_i he
      rcases orderedAux_lookup rest (seen ++ [e.1]) hrest c p h with h' | ⟨hk, hlt⟩
      · rcases List.mem_append.1 h' with h'' | h''
        · exact Or.inl h''
        · have hpe : p = e.1 := by simpa using h''
          refine Or.inr ⟨by simp [pmKeys, hpe], ?_⟩
          have h1 : keyIdx (e :: rest) p = 0 := by simp [keyIdx, hpe]
          have h2 : keyIdx (e :: rest) c = keyIdx rest c + 1 := keyIdx_pos_of_ne he
          omega
      · refine Or.inr ⟨by simp [pmKeys] at hk ⊢; exact Or.inr hk, ?_⟩
        have h2 : keyIdx (e :: rest) c = keyIdx rest c + 1 := keyIdx_pos_of_ne he
        by_cases hpe : (e.1 == p) = true
        · have h1 : keyIdx (e :: rest) p = 0 := by simp [keyIdx, hpe]
          omega
        · have h1 : keyIdx (e :: rest) p = keyIdx rest p + 1 := keyIdx_pos_of_ne hpe
          omega

theorem ordered_lookup {pm : PM} (hord : PMOrdered pm) {c p : String}
    (h : pmLookup pm c = some (some p)) :
    p ∈ pmKeys pm ∧ keyIdx pm p < keyIdx pm c := by
  rcases orderedAux_lookup pm [] hord c p h with h' | h'
  · simp at h'
  · exact h'

theorem pmGood_insert {root : String} {pm : PM} (hg : PMGood root pm)
    {node c : String} (hnode : node ∈ pmKeys pm) (hc : c ∉ pmKeys pm) :
    PMGood root (pm ++ [(c, some node)]) := by
  refine ⟨?_, ?_, ?_, ?_⟩
  · have : pmKeys (pm ++ [(c, some node)]) = pmKeys pm ++ [c] := by
      simp [pmKeys]
    rw [this]
    simpa [List.nodup_append] using ⟨hg.nodup, fun h => hc h⟩
  · rcases pm with _ | ⟨e, rest⟩
    · exact absurd hg.headEq (by simp)
    · simpa using hg.headEq
  · intro c' po h hpo
    rcases List.mem_append.1 h with h' | h'
    · exact hg.rootOnly c' po h' hpo
    · obtain ⟨h1, h2⟩ : c' = c ∧ po = some node := by simpa using h'
      rw [h2] at hpo
      exact Option.noConfusion hpo
  · exact (orderedAux_append [] pm (c, some node)).2
      ⟨hg.ordered, fun p hp => by
        obtain rfl : node = p := by injection hp
        simpa using hnode⟩

theorem keyIdx_lt_length {pm : PM} {c : String} (h : c ∈ pmKeys pm) :
    keyIdx pm c < pm.length := by
  induction pm with
  | nil => simp [pmKeys] at h
  | cons e rest ih =>
    rw [keyIdx]
    split
    · simp
    · rename_i he
      have hck : c ∈ e.1 :: pmKeys rest := h
      have : c ∈ pmKeys rest := by
        rcases List.mem_cons.1 hck with h' | h'
        · exact absurd (beq_iff_eq.2 h'.symm) (by simpa using he)
        · exact h'
      simpa using Nat.succ_lt_succ (ih this)

theorem pmLookup_some_of_mem {pm : PM} {c : String} (h : c ∈ pmKeys pm) :
    ∃ po, pmLookup pm c = some po := by
  have := (pmLookup_isSome_iff pm c).2 h
  exact Option.isSome_iff_exists.1 this

theorem root_of_lookup_none {root : String} {pm : PM} (hg : PMGood root pm)
    {c : String} (h : pmLookup pm c = some none) : c = root :=
  hg.rootOnly c none (pmLookup_mem_entry h) rfl

theorem reconstructWalk_stable {root : String} {pm : PM} (hg : PMGood root pm) :
    ∀ (k : Nat) (c : String), c ∈ pmKeys pm → keyIdx pm c = k →
      ∀ f1 f2, k + 1 ≤ f1 → k + 1 ≤ f2 →
      reconstructWalk f1 pm c = reconstructWalk f2 pm c := by
  intro k
  induction k using Nat.strong_induction_on with
  | _ k IH =>
    intro c hc hk f1 f2 h1 h2
    obtain ⟨f1', rfl⟩ : ∃ m, f1 = m + 1 := ⟨f1 - 1, by omega⟩
    obtain ⟨f2', rfl⟩ : ∃ m, f2 = m + 1 := ⟨f2 - 1, by omega⟩
    obtain ⟨po, hpo⟩ := pmLookup_some_of_mem hc
    cases po with
    | none => simp [reconstructWalk, hpo]
    | some p =>
      obtain ⟨hpk, hplt⟩ := ordered_lookup hg.ordered hpo
      rw [hk] at hplt
      simp only [reconstructWalk, hpo]
      congr 1
      exact IH (keyIdx pm p) (by omega) p hpk rfl f1' f2' (by omega) (by omega)

theorem reconstructWalk_props {root : String} {pm : PM} (hg : PMGood root pm) :
    ∀ (k : Nat) (c : String), c ∈ pmKeys pm → keyIdx pm c = k →
      (reconstructWalk (k + 1) pm c).head? = some c ∧
      (reconstructWalk (k + 1) pm c).getLast? = some root ∧
      (reconstructWalk (k + 1) pm c).Nodup ∧
      (∀ x ∈ reconstructWalk (k + 1) pm c, x ∈ pmKeys pm ∧ keyIdx pm x ≤ k) ∧
      List.Chain' (fun a b => pmLookup pm a = some (some b))
        (reconstructWalk (k + 1) pm c) := by
  intro k
  induction k using Nat.strong_induction_on with
  | _ k IH =>
    intro c hc hk
    obtain ⟨po, hpo⟩ := pmLookup_some_of_mem hc
    cases po with
    | none =>
      have hcroot : c = root := root_of_lookup_none hg hpo
      simp only [reconstructWalk, hpo]
      refine ⟨rfl, by simp [hcroot], by simp, ?_, by simp⟩
      intro x hx
      obtain rfl : x = c := by simpa using hx
      exact ⟨hc, hk.le⟩
    | some p =>
      obtain ⟨hpk, hplt⟩ := ordered_lookup hg.ordered hpo
      rw [hk] at hplt
      have hstable : reconstructWalk k pm p
          = reconstructWalk (keyIdx pm p + 1) pm p :=
        reconstructWalk_stable hg (keyIdx pm p) p hpk rfl k _ (by omega) (by omega)
      obtain ⟨hhead, hlast, hnd, hmem, hchain⟩ := IH (keyIdx pm p) (by omega) p hpk rfl
      simp only [reconstructWalk, hpo]
      rw [← hstable] at hhead hlast hnd hmem hchain
      obtain ⟨t, ht⟩ : ∃ t, reconstructWalk k pm p = p :: t := by
        rcases h : reconstructWalk k pm p with _ | ⟨a, t⟩
        · rw [h] at hhead
          exact absurd hhead (by simp)
        · rw [h] at hhead
          exact ⟨t, by simpa using congrArg (Option.getD · "") hhead⟩
      refine ⟨rfl, ?_, ?_, ?_, ?_⟩
      · rw [ht] at hlast ⊢
        simpa [List.getLast?_cons_cons] using hlast
      · refine List.nodup_cons.2 ⟨fun hcw => ?_, hnd⟩
        have := (hmem c hcw).2
        omega
      · intro x hx
        rcases List.mem_cons.1 hx with rfl | hx'
        · exact ⟨hc, hk.le⟩
        · have := hmem x hx'
          exact ⟨this.1, by omega⟩
      · rw [ht] at hchain ⊢
        exact List.chain'_cons.2 ⟨hpo, hchain⟩

theorem walk_full {root : String} {pm : PM} (hg : PMGood root pm) {c : String}
    (hc : c ∈ pmKeys pm) :
    (reconstructWalk (pm.length + 1) pm c).head? = some c ∧
    (reconstructWalk (pm.length + 1) pm c).getLast? = some root ∧
    (reconstructWalk (pm.length + 1) pm c).Nodup ∧
    (∀ x ∈ reconstructWalk (pm.length + 1) pm c, x ∈ pmKeys pm) ∧
    List.Chain' (fun a b => pmLookup pm a = some (some b))
      (reconstructWalk (pm.length + 1) pm c) ∧
    (∀ m, pm.length + 1 ≤ m →
      reconstructWalk m pm c = reconstructWalk (pm.length + 1) pm c) := by
  have hlt := keyIdx_lt_length hc
  have hstd := reconstructWalk_props hg (keyIdx pm c) c hc rfl
  have heq : reconstructWalk (pm.length + 1) pm c
      = reconstructWalk (keyIdx pm c + 1) pm c :=
    reconstructWalk_stable hg _ c hc rfl _ _ (by omega) (by omega)
  rw [heq]
  refine ⟨hstd.1, hstd.2.1, hstd.2.2.1, fun x hx => (hstd.2.2.2.1 x hx).1,
    hstd.2.2.2.2, ?_⟩
  intro m hm
  exact reconstructWalk_stable hg _ c hc rfl m _ (by omega) (by omega)

theorem pmKeys_prefix_mono {pm p' : PM} (hpre : pm <+: p') {t : String}
    (h : t ∈ pmKeys pm) : t ∈ pmKeys p' := by
  rcases hpre with ⟨ext, rfl⟩
  simp [pmKeys] at h ⊢
  tauto

theorem pmKeys_append_single (pm : PM) (c : String) (po : Option String) :
    pmKeys (pm ++ [(c, po)]) = pmKeys pm ++ [c] := by
  simp [pmKeys]

/-! ## Lemmas: merging a level's results -/

theorem mergeChildren_more_spec (pOther : PM) (node : String) (root : String)
    (P : String → String → Prop) :
    ∀ {children q : List String} {pOwn : PM} {q' : List String} {p' : PM},
      node ∈ pmKeys pOwn →
      (∀ t ∈ q, t ∈ pmKeys pOwn) →
      PMGood root pOwn →
      (∀ c p, (c, some p) ∈ pOwn → P c p) →
      (∀ c ∈ children, P c node) →
      mergeChildren pOther node children q pOwn = .more q' p' →
      pOwn <+: p' ∧
      (∀ t ∈ pmKeys p', t ∈ pmKeys pOwn ∨ t ∈ children) ∧
      (∀ t ∈ q', t ∈ pmKeys p') ∧
      PMGood root p' ∧
      (∀ c p, (c, some p) ∈ p' → P c p) ∧
      ((∀ t, t ∈ pmKeys pOwn → t ∈ pmKeys pOther → False) →
        ∀ t, t ∈ pmKeys p' → t ∈ pmKeys pOther → False)
  | [], q, pOwn, q', p', hnode, hq, hgood, hprov, hP, h => by
    obtain ⟨rfl, rfl⟩ : q = q' ∧ pOwn = p' := by
      rw [mergeChildren] at h
      exact ⟨by injection h, by injection h⟩
    exact ⟨List.prefix_refl _, fun t ht => Or.inl ht, hq, hgood, hprov,
      fun hd => hd⟩
  | child :: rest, q, pOwn, q', p', hnode, hq, hgood, hprov, hP, h => by
    rw [mergeChildren] at h
    split at h
    · rename_i hmem
      obtain ⟨h1, h2, h3, h4, h5, h6⟩ :=
        mergeChildren_more_spec pOther node root P hnode hq hgood hprov
          (fun c hc => hP c (List.mem_cons_of_mem _ hc)) h
      exact ⟨h1, fun t ht => (h2 t ht).imp_right (List.mem_cons_of_mem _),
        h3, h4, h5, h6⟩
    · split at h
      · exact MergeOut.noConfusion h
      · rename_i hmemOwn hmemOther
        have hchild : child ∉ pmKeys pOwn := fun hm =>
          hmemOwn ((pmMem_iff pOwn child).2 hm)
        have hnode1 : node ∈ pmKeys (pmInsert pOwn child (some node)) :=
          pmKeys_prefix_mono ⟨[(child, some node)], rfl⟩ hnode
        have hq1 : ∀ t ∈ q ++ [child],
            t ∈ pmKeys (pmInsert pOwn child (some node)) := by
          intro t ht
          rcases List.mem_append.1 ht with ht' | ht'
          · exact pmKeys_prefix_mono ⟨[(child, some node)], rfl⟩ (hq t ht')
          · obtain rfl : t = child := by simpa using ht'
            rw [pmInsert, pmKeys_append_single]
            simp
        have hgood1 : PMGood root (pmInsert pOwn child (some node)) :=
          pmGood_insert hgood hnode hchild
        have hprov1 : ∀ c p, (c, some p) ∈ pmInsert pOwn child (some node) →
            P c p := by
          intro c p hcp
          rcases List.mem_append.1 hcp with h' | h'
          · exact hprov c p h'
          · obtain ⟨rfl, h2⟩ : c = child ∧ (some p : Option String) = some node := by
              simpa using h'
            obtain rfl : p = node := by injection h2
            exact hP c (List.mem_cons_self _ _)
        obtain ⟨h1, h2, h3, h4, h5, h6⟩ :=
          mergeChildren_more_spec pOther node root P hnode1 hq1 hgood1 hprov1
            (fun c hc => hP c (List.mem_cons_of_mem _ hc)) h
        refine ⟨List.IsPrefix.trans ⟨[(child, some node)], rfl⟩ h1,
          fun t ht => ?_, h3, h4, h5, fun hd => ?_⟩
        · rcases h2 t ht with ht' | ht'
          · rw [pmInsert, pmKeys_append_single] at ht'
            rcases List.mem_append.1 ht' with h' | h'
            · exact Or.inl h'
            · obtain rfl : t = child := by simpa using h'
              exact Or.inr (List.mem_cons_self _ _)
          · exact Or.inr (List.mem_cons_of_mem _ ht')
        · refine h6 ?_
          intro t ht hto
          rw [pmInsert, pmKeys_append_single] at ht
          rcases List.mem_append.1 ht with h' | h'
          · exact hd t h' hto
          · obtain rfl : t = child := by simpa using h'
            exact hmemOther ((pmMem_iff pOther t).2 hto)

theorem mergeChildren_met_spec (pOther : PM) (node : String) (root : String)
    (P : String → String → Prop) :
    ∀ {children q : List String} {pOwn : PM} {c : String} {q' : List String}
      {p' : PM},
      node ∈ pmKeys pOwn →
      (∀ t ∈ q, t ∈ pmKeys pOwn) →
      PMGood root pOwn →
      (∀ c' p, (c', some p) ∈ pOwn → P c' p) →
      (∀ c' ∈ children, P c' node) →
      mergeChildren pOther node children q pOwn = .met c q' p' →
      pOwn <+: p' ∧
      (∀ t ∈ pmKeys p', t ∈ pmKeys pOwn ∨ t ∈ children) ∧
      (∀ t ∈ q', t ∈ pmKeys p') ∧
      PMGood root p' ∧
      (∀ c' p, (c', some p) ∈ p' → P c' p) ∧
      c ∈ pmKeys p' ∧ c ∈ pmKeys pOther ∧
      ((∀ t, t ∈ pmKeys pOwn → t ∈ pmKeys pOther → False) →
        ∀ t, t ∈ pmKeys p' → t ∈ pmKeys pOther → t = c)
  | [], q, pOwn, c, q', p', hnode, hq, hgood, hprov, hP, h => by
    rw [mergeChildren] at h
    exact MergeOut.noConfusion h
  | child :: rest, q, pOwn, c, q', p', hnode, hq, hgood, hprov, hP, h => by
    rw [mergeChildren] at h
    split at h
    · rename_i hmem
      obtain ⟨h1, h2, h3, h4, h5, h6, h7, h8⟩ :=
        mergeChildren_met_spec pOther node root P hnode hq hgood hprov
          (fun c' hc => hP c' (List.mem_cons_of_mem _ hc)) h
      exact ⟨h1, fun t ht => (h2 t ht).imp_right (List.mem_cons_of_mem _),
        h3, h4, h5, h6, h7, h8⟩
    · split at h
      · rename_i hmemOwn hmemOther
        obtain ⟨rfl, rfl, rfl⟩ :
            child = c ∧ q ++ [child] = q' ∧ pmInsert pOwn child (some node) = p' := by
          refine ⟨by injection h, by injection h, by injection h⟩
        have hchild : child ∉ pmKeys pOwn := fun hm =>
          hmemOwn ((pmMem_iff pOwn child).2 hm)
        have hkeys : pmKeys (pmInsert pOwn child (some node))
            = pmKeys pOwn ++ [child] := pmKeys_append_single _ _ _
        refine ⟨⟨[(child, some node)], rfl⟩, ?_, ?_, pmGood_insert hgood hnode hchild,
          ?_, ?_, (pmMem_iff pOther child).1 hmemOther, ?_⟩
        · intro t ht
          rw [hkeys] at ht
          rcases List.mem_append.1 ht with h' | h'
          · exact Or.inl h'
          · obtain rfl : t = child := by simpa using h'
            exact Or.inr (List.mem_cons_self _ _)
        · intro t ht
          rw [hkeys]
          rcases List.mem_append.1 ht with h' | h'
          · exact List.mem_append.2 (Or.inl (hq t h'))
          · exact List.mem_append.2 (Or.inr h')
        · intro c' p hcp
          rcases List.mem_append.1 hcp with h' | h'
          · exact hprov c' p h'
          · obtain ⟨rfl, h2⟩ : c' = child ∧ (some p : Option String) = some node := by
              simpa using h'
            obtain rfl : p = node := by injection h2
            exact hP c' (List.mem_cons_self _ _)
        · rw [hkeys]
          simp
        · intro hd t ht hto
          rw [hkeys] at ht
          rcases List.mem_append.1 ht with h' | h'
          · exact absurd hto (fun h'' => hd t h' h'')
          · simpa using h'
      · rename_i hmemOwn hmemOther
        have hchild : child ∉ pmKeys pOwn := fun hm =>
          hmemOwn ((pmMem_iff pOwn child).2 hm)
        have hnode1 : node ∈ pmKeys (pmInsert pOwn child (some node)) :=
          pmKeys_prefix_mono ⟨[(child, some node)], rfl⟩ hnode
        have hq1 : ∀ t ∈ q ++ [child],
            t ∈ pmKeys (pmInsert pOwn child (some node)) := by
          intro t ht
          rcases List.mem_append.1 ht with ht' | ht'
          · exact pmKeys_prefix_mono ⟨[(child, some node)], rfl⟩ (hq t ht')
          · obtain rfl : t = child := by simpa using ht'
            rw [pmInsert, pmKeys_append_single]
            simp
        have hgood1 : PMGood root (pmInsert pOwn child (some node)) :=
          pmGood_insert hgood hnode hchild
        have hprov1 : ∀ c' p, (c', some p) ∈ pmInsert pOwn child (some node) →
            P c' p := by
          intro c' p hcp
          rcases List.mem_append.1 hcp with h' | h'
          · exact hprov c' p h'
          · obtain ⟨rfl, h2⟩ : c' = child ∧ (some p : Option String) = some node := by
              simpa using h'
            obtain rfl : p = node := by injection h2
            exact hP c' (List.mem_cons_self _ _)
        obtain ⟨h1, h2, h3, h4, h5, h6, h7, h8⟩ :=
          mergeChildren_met_spec pOther node root P hnode1 hq1 hgood1 hprov1
            (fun c' hc => hP c' (List.mem_cons_of_mem _ hc)) h
        refine ⟨List.IsPrefix.trans ⟨[(child, some node)], rfl⟩ h1,
          fun t ht => ?_, h3, h4, h5, h6, h7, fun hd => ?_⟩
        · rcases h2 t ht with ht' | ht'
          · rw [pmInsert, pmKeys_append_single] at ht'
            rcases List.mem_append.1 ht' with h' | h'
            · exact Or.inl h'
            · obtain rfl : t = child := by simpa using h'
              exact Or.inr (List.mem_cons_self _ _)
          · exact Or.inr (List.mem_cons_of_mem _ ht')
        · refine h8 ?_
          intro t ht hto
          rw [pmInsert, pmKeys_append_single] at ht
          rcases List.mem_append.1 ht with h' | h'
          · exact hd t h' hto
          · obtain rfl : t = child := by simpa using h'
            exact absurd ((pmMem_iff pOther t).2 hto) hmemOther

theorem mergeResults_more_spec (pOther : PM) (root : String)
    (P : String → String → Prop) :
    ∀ {results : List (String × List String)} {q : List String} {pOwn : PM}
      {q' : List String} {p' : PM},
      (∀ pr ∈ results, pr.1 ∈ pmKeys pOwn ∧ ∀ c ∈ pr.2, P c pr.1) →
      (∀ t ∈ q, t ∈ pmKeys pOwn) →
      PMGood root pOwn →
      (∀ c p, (c, some p) ∈ pOwn → P c p) →
      mergeResults pOther results q pOwn = .more q' p' →
      pOwn <+: p' ∧
      (∀ t ∈ pmKeys p', t ∈ pmKeys pOwn ∨ ∃ pr ∈ results, t ∈ pr.2) ∧
      (∀ t ∈ q', t ∈ pmKeys p') ∧
      PMGood root p' ∧
      (∀ c p, (c, some p) ∈ p' → P c p) ∧
      ((∀ t, t ∈ pmKeys pOwn → t ∈ pmKeys pOther → False) →
        ∀ t, t ∈ pmKeys p' → t ∈ pmKeys pOther → False)
  | [], q, pOwn, q', p', hres, hq, hgood, hprov, h => by
    obtain ⟨rfl, rfl⟩ : q = q' ∧ pOwn = p' := by
      rw [mergeResults] at h
      exact ⟨by injection h, by injection h⟩
    exact ⟨List.prefix_refl _, fun t ht => Or.inl ht, hq, hgood, hprov,
      fun hd => hd⟩
  | (n, cs) :: rest, q, pOwn, q', p', hres, hq, hgood, hprov, h => by
    rw [mergeResults] at h
    split at h
    · rename_i q1 p1 hmc
      obtain ⟨h1, h2, h3, h4, h5, h6⟩ :=
        mergeChildren_more_spec pOther n root P (hres (n, cs) (by simp)).1 hq hgood hprov
          (hres (n, cs) (by simp)).2 hmc
      have hres1 : ∀ pr ∈ rest, pr.1 ∈ pmKeys p1 ∧ ∀ c ∈ pr.2, P c pr.1 :=
        fun pr hpr => ⟨pmKeys_prefix_mono h1 (hres pr (by simp [hpr])).1,
          (hres pr (by simp [hpr])).2⟩
      obtain ⟨g1, g2, g3, g4, g5, g6⟩ :=
        mergeResults_more_spec pOther root P hres1 h3 h4 h5 h
      refine ⟨h1.trans g1, fun t ht => ?_, g3, g4, g5, fun hd => g6 (h6 hd)⟩
      rcases g2 t ht with ht' | ⟨pr, hpr, htpr⟩
      · rcases h2 t ht' with h' | h'
        · exact Or.inl h'
        · exact Or.inr ⟨(n, cs), by simp, h'⟩
      · exact Or.inr ⟨pr, by simp [hpr], htpr⟩
    · exact MergeOut.noConfusion h

theorem mergeResults_met_spec (pOther : PM) (root : String)
    (P : String → String → Prop) :
    ∀ {results : List (String × List String)} {q : List String} {pOwn : PM}
      {c : String} {q' : List String} {p' : PM},
      (∀ pr ∈ results, pr.1 ∈ pmKeys pOwn ∧ ∀ c' ∈ pr.2, P c' pr.1) →
      (∀ t ∈ q, t ∈ pmKeys pOwn) →
      PMGood root pOwn →
      (∀ c' p, (c', some p) ∈ pOwn → P c' p) →
      mergeResults pOther results q pOwn = .met c q' p' →
      pOwn <+: p' ∧
      (∀ t ∈ pmKeys p', t ∈ pmKeys pOwn ∨ ∃ pr ∈ results, t ∈ pr.2) ∧
      (∀ t ∈ q', t ∈ pmKeys p') ∧
      PMGood root p' ∧
      (∀ c' p, (c', some p) ∈ p' → P c' p) ∧
      c ∈ pmKeys p' ∧ c ∈ pmKeys pOther ∧
      ((∀ t, t ∈ pmKeys pOwn → t ∈ pmKeys pOther → False) →
        ∀ t, t ∈ pmKeys p' → t ∈ pmKeys pOther → t = c)
  | [], q, pOwn, c, q', p', hres, hq, hgood, hprov, h => by
    rw [mergeResults] at h
    exact MergeOut.noConfusion h
  | (n, cs) :: rest, q, pOwn, c, q', p', hres, hq, hgood, hprov, h => by
    rw [mergeResults] at h
    split at h
    · rename_i q1 p1 hmc
      obtain ⟨h1, h2, h3, h4, h5, h6⟩ :=
        mergeChildren_more_spec pOther n root P (hres (n, cs) (by simp)).1 hq hgood hprov
          (hres (n, cs) (by simp)).2 hmc
      have hres1 : ∀ pr ∈ rest, pr.1 ∈ pmKeys p1 ∧ ∀ c' ∈ pr.2, P c' pr.1 :=
        fun pr hpr => ⟨pmKeys_prefix_mono h1 (hres pr (by simp [hpr])).1,
          (hres pr (by simp [hpr])).2⟩
      obtain ⟨g1, gk, g2, g3, g4, g5, g6, g7⟩ :=
        mergeResults_met_spec pOther root P hres1 h3 h4 h5 h
      refine ⟨h1.trans g1, fun t ht => ?_, g2, g3, g4, g5, g6,
        fun hd => g7 (h6 hd)⟩
      rcases gk t ht with ht' | ⟨pr, hpr, htpr⟩
      · rcases h2 t ht' with h' | h'
        · exact Or.inl h'
        · exact Or.inr ⟨(n, cs), by simp, h'⟩
      · exact Or.inr ⟨pr, by simp [hpr], htpr⟩
    · rename_i c1 q1 p1 hmc
      obtain ⟨rfl, rfl, rfl⟩ : c1 = c ∧ q1 = q' ∧ p1 = p' :=
        ⟨by injection h, by injection h, by injection h⟩
      obtain ⟨h1, h2, h3, h4, h5, h6, h7, h8⟩ :=
        mergeChildren_met_spec pOther n root P (hres (n, cs) (by simp)).1 hq hgood hprov
          (hres (n, cs) (by simp)).2 hmc
      refine ⟨h1, fun t ht => ?_, h3, h4, h5, h6, h7, h8⟩
      rcases h2 t ht with h' | h'
      · exact Or.inl h'
      · exact Or.inr ⟨(n, cs), by simp, h'⟩

/-! ## Lemmas: `_process_node` and the per-level gather -/

theorem processNode_none_spec {o : SearchOracle} {s : Nat} {n : String}
    {dir : Direction} {pc : PageCache} {bc : BlCache} {cc : CatCache}
    {pc' : PageCache} {bc' : BlCache} {cc' : CatCache} {obsN : List ObsEntry}
    (h : processNode o s n dir pc bc cc = (none, pc', bc', cc', obsN)) :
    obsN = [] := by
  unfold processNode at h
  split at h
  · simp only [Prod.mk.injEq] at h
    exact h.2.2.2.2.symm
  · simp only [Prod.mk.injEq] at h
    exact Option.noConfusion h.1

theorem processNode_some_spec {o : SearchOracle} {s : Nat} {n : String}
    {dir : Direction} {pc : PageCache} {bc : BlCache} {cc : CatCache}
    {children : List String} {pc' : PageCache} {bc' : BlCache} {cc' : CatCache}
    {obsN : List ObsEntry}
    (h : processNode o s n dir pc bc cc = (some children, pc', bc', cc', obsN)) :
    ∃ ls, (match dir with
      | Direction.forward =>
          obsN = [.pageLinks n ls, .childrenOf .forward n children]
      | Direction.backward =>
          obsN = [.backlinks n ls, .childrenOf .backward n children]) ∧
      (OracleTame o → ∀ c ∈ children, heuristicKeep c = true ∧ c ∈ ls) := by
  unfold processNode at h
  split at h
  · simp only [Prod.mk.injEq] at h
    exact Option.noConfusion h.1
  · cases dir with
    | forward =>
      simp only [Prod.mk.injEq] at h
      obtain ⟨h1, h2, h3, h4, h5⟩ := h
      obtain rfl : (batchCheckCategories (o.cat s n)
          ((o.shuffle s n (heuristicFilter (getPageData (o.page s n) pc n).1.2)).take
            MAX_CANDIDATES_TO_CHECK) cc).1.take MAX_DEGREE = children :=
        Option.some.inj h1
      refine ⟨(getPageData (o.page s n) pc n).1.2, h5.symm, ?_⟩
      intro htame c hc
      have hc1 : c ∈ (batchCheckCategories (o.cat s n)
          ((o.shuffle s n (heuristicFilter (getPageData (o.page s n) pc n).1.2)).take
            MAX_CANDIDATES_TO_CHECK) cc).1 := List.mem_of_mem_take hc
      have hc2 := bcc_subset (htame.2 s n) _ cc hc1
      have hc3 := List.mem_of_mem_take hc2
      have hc4 := htame.1 s n _ c hc3
      have hc5 := List.mem_filter.1 hc4
      exact ⟨hc5.2, hc5.1⟩
    | backward =>
      simp only [Prod.mk.injEq] at h
      obtain ⟨h1, h2, h3, h4, h5⟩ := h
      obtain rfl : (batchCheckCategories (o.cat s n)
          ((o.shuffle s n (heuristicFilter (getBacklinks (o.backlinks s n) bc n).1)).take
            MAX_CANDIDATES_TO_CHECK) cc).1.take MAX_DEGREE = children :=
        Option.some.inj h1
      refine ⟨(getBacklinks (o.backlinks s n) bc n).1, h5.symm, ?_⟩
      intro htame c hc
      have hc1 : c ∈ (batchCheckCategories (o.cat s n)
          ((o.shuffle s n (heuristicFilter (getBacklinks (o.backlinks s n) bc n).1)).take
            MAX_CANDIDATES_TO_CHECK) cc).1 := List.mem_of_mem_take hc
      have hc2 := bcc_subset (htame.2 s n) _ cc hc1
      have hc3 := List.mem_of_mem_take hc2
      have hc4 := htame.1 s n _ c hc3
      have hc5 := List.mem_filter.1 hc4
      exact ⟨hc5.2, hc5.1⟩

theorem processLevel_spec (o : SearchOracle) (s : Nat) (dir : Direction) :
    ∀ (nodes : List String) (pc : PageCache) (bc : BlCache) (cc : CatCache),
      (∀ pr ∈ (processLevel o s dir nodes pc bc cc).1,
        pr.1 ∈ nodes ∧
        ObsEntry.childrenOf dir pr.1 pr.2
          ∈ (processLevel o s dir nodes pc bc cc).2.2.2.2) ∧
      (OracleTame o →
        (∀ pr ∈ (processLevel o s dir nodes pc bc cc).1,
          ∀ c ∈ pr.2, heuristicKeep c = true) ∧
        (∀ d' n' cs', ObsEntry.childrenOf d' n' cs'
            ∈ (processLevel o s dir nodes pc bc cc).2.2.2.2 → ∀ c ∈ cs',
          (d' = .forward → ∃ ls,
            ObsEntry.pageLinks n' ls ∈ (processLevel o s dir nodes pc bc cc).2.2.2.2
              ∧ c ∈ ls) ∧
          (d' = .backward → ∃ ls,
            ObsEntry.backlinks n' ls ∈ (processLevel o s dir nodes pc bc cc).2.2.2.2
              ∧ c ∈ ls)))
  | [], pc, bc, cc => by
    constructor
    · intro pr hpr
      simp [processLevel] at hpr
    · intro _
      constructor
      · intro pr hpr
        simp [processLevel] at hpr
      · intro d' n' cs' hmem
        simp [processLevel] at hmem
  | n :: rest, pc, bc, cc => by
    rcases hr : processNode o s n dir pc bc cc with ⟨res, pc1, bc1, cc1, obsN⟩
    have hunf : processLevel o s dir (n :: rest) pc bc cc
        = ((match res with
            | some children => [(n, children)]
            | none => []) ++ (processLevel o s dir rest pc1 bc1 cc1).1,
           (processLevel o s dir rest pc1 bc1 cc1).2.1,
           (processLevel o s dir rest pc1 bc1 cc1).2.2.1,
           (processLevel o s dir rest pc1 bc1 cc1).2.2.2.1,
           obsN ++ (processLevel o s dir rest pc1 bc1 cc1).2.2.2.2) := by
      rw [processLevel]
      simp only [hr]
      cases res <;> rfl
    obtain ⟨ih1, ih2⟩ := processLevel_spec o s dir rest pc1 bc1 cc1
    rw [hunf]
    cases res with
    | none =>
      obtain rfl : obsN = [] := processNode_none_spec hr
      constructor
      · intro pr hpr
        simp only [List.nil_append] at hpr
        exact ⟨List.mem_cons_of_mem _ (ih1 pr hpr).1, (ih1 pr hpr).2⟩
      · intro htame
        refine ⟨fun pr hpr => ((ih2 htame).1 pr hpr), ?_⟩
        intro d' n' cs' hmem c hc
        obtain ⟨w1, w2⟩ := (ih2 htame).2 d' n' cs' hmem c hc
        exact ⟨fun hd => (w1 hd).imp (fun ls hls => ⟨hls.1, hls.2⟩),
          fun hd => (w2 hd).imp (fun ls hls => ⟨hls.1, hls.2⟩)⟩
    | some children =>
      obtain ⟨ls, hobs, htameFacts⟩ := processNode_some_spec hr
      constructor
      · intro pr hpr
        rcases List.mem_append.1 hpr with h' | h'
        · obtain rfl : pr = (n, children) := by simpa using h'
          refine ⟨List.mem_cons_self _ _, List.mem_append.2 (Or.inl ?_)⟩
          cases dir <;> simp [hobs]
        · exact ⟨List.mem_cons_of_mem _ (ih1 pr h').1,
            List.mem_append.2 (Or.inr (ih1 pr h').2)⟩
      · intro htame
        constructor
        · intro pr hpr c hc
          rcases List.mem_append.1 hpr with h' | h'
          · obtain rfl : pr = (n, children) := by simpa using h'
            exact (htameFacts htame c hc).1
          · exact (ih2 htame).1 pr h' c hc
        · intro d' n' cs' hmem c hc
          rcases List.mem_append.1 hmem with h' | h'
          · cases dir with
            | forward =>
              rw [hobs] at h'
              rcases List.mem_cons.1 h' with h'' | h''
              · exact absurd h'' (by simp)
              · obtain ⟨rfl, rfl, rfl⟩ : d' = Direction.forward ∧ n' = n
                    ∧ cs' = children := by
                  simpa using List.mem_singleton.1 h''
                refine ⟨fun _ => ⟨ls, ?_, (htameFacts htame c hc).2⟩,
                  fun hd => Direction.noConfusion hd⟩
                exact List.mem_append.2 (Or.inl (by simp [hobs]))
            | backward =>
              rw [hobs] at h'
              rcases List.mem_cons.1 h' with h'' | h''
              · exact absurd h'' (by simp)
              · obtain ⟨rfl, rfl, rfl⟩ : d' = Direction.backward ∧ n' = n
                    ∧ cs' = children := by
                  simpa using List.mem_singleton.1 h''
                refine ⟨fun hd => Direction.noConfusion hd,
                  fun _ => ⟨ls, ?_, (htameFacts htame c hc).2⟩⟩
                exact List.mem_append.2 (Or.inl (by simp [hobs]))
          · obtain ⟨w1, w2⟩ := (ih2 htame).2 d' n' cs' h' c hc
            exact ⟨fun hd => (w1 hd).imp (fun l hl =>
                ⟨List.mem_append.2 (Or.inr hl.1), hl.2⟩),
              fun hd => (w2 hd).imp (fun l hl =>
                ⟨List.mem_append.2 (Or.inr hl.1), hl.2⟩)⟩

/-! ## Lemmas: one iteration of the search loop -/

theorem searchStep_next_basic {o : SearchOracle} {st : SearchState}
    {evts : List (Nat × Event)} {st' : SearchState}
    (h : searchStep o st = .next evts st') :
    st'.stepCount = st.stepCount + 1 ∧ st'.stepCount ≤ MAX_STEP_COUNT ∧
    (∀ pr ∈ evts, (pr.2).isTerminal = false) := by
  unfold searchStep at h
  dsimp only at h
  repeat' split at h
  any_goals exact StepOut.noConfusion h
  all_goals
    injection h with h1 h2
  all_goals
    subst h1
  all_goals
    subst h2
  all_goals
    refine ⟨rfl, ?_, ?_⟩
  any_goals
    intro pr hpr
  any_goals
    obtain rfl := List.mem_singleton.1 hpr
  any_goals rfl
  all_goals dsimp only
  all_goals omega

theorem searchStep_halt_shape {o : SearchOracle} {st : SearchState}
    {evts : List (Nat × Event)} {st' : SearchState}
    (h : searchStep o st = .halt evts st') :
    ∃ pre t, evts.map Prod.snd = pre ++ [t] ∧ t.isTerminal = true ∧
      ∀ x ∈ pre, x.isTerminal = false := by
  unfold searchStep at h
  dsimp only at h
  repeat' split at h
  any_goals exact StepOut.noConfusion h
  all_goals
    injection h with h1 h2
  all_goals
    subst h1
  all_goals
    first
      | exact ⟨[], _, rfl, rfl, by simp⟩
      | exact ⟨[_], _, rfl, rfl, by
          intro x hx
          obtain rfl := List.mem_singleton.1 hx
          rfl⟩

theorem searchLoop_shape (o : SearchOracle) :
    ∀ (fuel : Nat) (st : SearchState),
      st.stepCount ≤ MAX_STEP_COUNT →
      MAX_STEP_COUNT + 1 ≤ fuel + st.stepCount →
      ∃ pre t, (searchLoop o fuel st).1.map Prod.snd = pre ++ [t] ∧
        t.isTerminal = true ∧ ∀ x ∈ pre, x.isTerminal = false
  | 0, st, h1, h2 => by omega
  | fuel + 1, st, h1, h2 => by
    rw [searchLoop]
    rcases hs : searchStep o st with ⟨evts, st1⟩ | ⟨evts, st1⟩
    · exact searchStep_halt_shape hs
    · obtain ⟨hsc, hscle, hnt⟩ := searchStep_next_basic hs
      obtain ⟨pre, t, hmap, hterm, hpre⟩ :=
        searchLoop_shape o fuel st1 hscle (by omega)
      refine ⟨evts.map Prod.snd ++ pre, t, ?_, hterm, ?_⟩
      · simp [hmap]
      · intro x hx
        rcases List.mem_append.1 hx with h' | h'
        · rcases List.mem_map.1 h' with ⟨pr, hpr, rfl⟩
          exact hnt pr hpr
        · exact hpre x h'

/-- C1 (amended).  For every oracle behavior (arbitrary page, backlink and
category responses, arbitrary clock readings, arbitrary task failures) the
event stream of `find_shortest_path` is finite and contains exactly one
terminal event (`finished`, `not_found`, or `error`), which is its last
element.  Termination is structural: the step counter bounds the loop at
`MAX_STEP_COUNT` iterations.  No hard wall-clock bound exists -- see the
counterexample, where the terminal event is emitted at an arbitrarily late
clock reading. -/
theorem c1_stream_single_terminal_last (o : SearchOracle)
    (startNode endNode : String) (pc : PageCache) (bc : BlCache) (cc : CatCache) :
    ∃ pre t, searchEvents o startNode endNode pc bc cc = pre ++ [t] ∧
      t.isTerminal = true ∧ ∀ x ∈ pre, x.isTerminal = false := by
  obtain ⟨pre, t, hmap, ht, hpre⟩ := searchLoop_shape o (MAX_STEP_COUNT + 1)
    (searchInit startNode endNode pc bc cc) (by simp [searchInit])
    (by simp [searchInit])
  refine ⟨Event.info :: pre, t, ?_, ht, ?_⟩
  · simp [searchEvents, search, hmap]
  · intro x hx
    rcases List.mem_cons.1 hx with rfl | hx'
    · rfl
    · exact hpre x hx'

/-- C1 counterexample.  The claim bounds the emission of the terminal
event by `HARD_TIMEOUT + ε` wall-clock seconds for every API behavior.
The code has no watchdog: with an iteration that stalls (modelled by the
clock oracle reading 1000000 s at the second loop head), the terminal
`error` event is emitted at a clock reading of 1000000 seconds, far beyond
`HARD_TIMEOUT` (spec: at most 100 s) plus any reasonable `ε`. -/
theorem c1_counterexample_no_wallclock_bound :
    (search slowClockOracle "Aaa" "Bbb" [] [] []).1.getLast?
      = some (1000000, Event.error "timeout") ∧
    HARD_TIMEOUT + TIMEOUT_SECONDS < 1000000 := by decide

theorem obsGood_append {obsOld obsNew : List ObsEntry}
    (hold : ObsGood obsOld)
    (hnew : ∀ d' n' cs', ObsEntry.childrenOf d' n' cs' ∈ obsNew → ∀ c ∈ cs',
      (d' = .forward → ∃ ls, ObsEntry.pageLinks n' ls ∈ obsNew ∧ c ∈ ls) ∧
      (d' = .backward → ∃ ls, ObsEntry.backlinks n' ls ∈ obsNew ∧ c ∈ ls)) :
    ObsGood (obsOld ++ obsNew) := by
  intro d n cs hmem c hc
  rcases List.mem_append.1 hmem with h' | h'
  · have hw := hold d n cs h' c hc
    cases d with
    | forward =>
      exact hw.imp (fun ls hl => ⟨List.mem_append.2 (Or.inl hl.1), hl.2⟩)
    | backward =>
      exact hw.imp (fun ls hl => ⟨List.mem_append.2 (Or.inl hl.1), hl.2⟩)
  · have hw := hnew d n cs h' c hc
    cases d with
    | forward =>
      exact (hw.1 rfl).imp (fun ls hl => ⟨List.mem_append.2 (Or.inr hl.1), hl.2⟩)
    | backward =>
      exact (hw.2 rfl).imp (fun ls hl => ⟨List.mem_append.2 (Or.inr hl.1), hl.2⟩)

theorem searchStep_next_inv {o : SearchOracle} {st : SearchState}
    {evts : List (Nat × Event)} {st' : SearchState} (s e : String)
    (h : searchStep o st = .next evts st') :
    (SearchInv s e st → SearchInv s e st' ∧
      st.parentF <+: st'.parentF ∧ st.parentB <+: st'.parentB) ∧
    (∃ newObs, st'.obs = st.obs ++ newObs) ∧
    (OracleTame o → ObsGood st.obs → ObsGood st'.obs) ∧
    (OracleTame o → SearchInv s e st → KeepInv s e st → KeepInv s e st') := by
  unfold searchStep at h
  dsimp only at h
  repeat' split at h
  any_goals exact StepOut.noConfusion h
  all_goals injection h with h1 h2
  all_goals subst h1
  all_goals subst h2
  all_goals try exact Direction.noConfusion ‹Direction.forward = Direction.backward›
  all_goals try exact Direction.noConfusion ‹Direction.backward = Direction.forward›
  all_goals rename_i hq0 htime hvis mo q2 p2 heq hdepth hdir d1 hd1 d2 hd2
  · -- forward expansion
    simp only [if_pos hdir] at heq ⊢
    obtain ⟨plA, plB⟩ := processLevel_spec o st.stepCount Direction.forward
      (st.queueF.take BATCH_SIZE) st.pageCache st.blCache st.catCache
    have core : SearchInv s e st →
        st.parentF <+: p2 ∧
        (∀ t ∈ pmKeys p2, t ∈ pmKeys st.parentF ∨
          ∃ pr ∈ (processLevel o st.stepCount Direction.forward
            (st.queueF.take BATCH_SIZE) st.pageCache st.blCache st.catCache).1,
            t ∈ pr.2) ∧
        (∀ t ∈ q2, t ∈ pmKeys p2) ∧
        PMGood s p2 ∧
        (∀ c p, (c, some p) ∈ p2 → ∃ cs,
          ObsEntry.childrenOf Direction.forward p cs ∈ st.obs ++
            (processLevel o st.stepCount Direction.forward
              (st.queueF.take BATCH_SIZE) st.pageCache st.blCache st.catCache).2.2.2.2
          ∧ c ∈ cs) ∧
        ((∀ t, t ∈ pmKeys st.parentF → t ∈ pmKeys st.parentB → False) →
          ∀ t, t ∈ pmKeys p2 → t ∈ pmKeys st.parentB → False) := by
      intro hinv
      refine mergeResults_more_spec st.parentB s
        (fun c p => ∃ cs, ObsEntry.childrenOf Direction.forward p cs ∈ st.obs ++
          (processLevel o st.stepCount Direction.forward
            (st.queueF.take BATCH_SIZE) st.pageCache st.blCache st.catCache).2.2.2.2
          ∧ c ∈ cs)
        ?_ ?_ hinv.goodF ?_ heq
      · intro pr hpr
        exact ⟨hinv.qF pr.1 (List.mem_of_mem_take (plA pr hpr).1),
          fun c hc => ⟨pr.2, List.mem_append.2 (Or.inr (plA pr hpr).2), hc⟩⟩
      · intro t ht
        exact hinv.qF t (List.mem_of_mem_drop ht)
      · intro c p hcp
        obtain ⟨cs, hcs, hccs⟩ := hinv.provF c p hcp
        exact ⟨cs, List.mem_append.2 (Or.inl hcs), hccs⟩
    refine ⟨fun hinv => ?_, ⟨_, rfl⟩, fun htame hog => ?_, fun htame hinv hkeep => ?_⟩
    · obtain ⟨m1, m2, m3, m4, m5, m6⟩ := core hinv
      refine ⟨⟨m3, hinv.qB, m4, hinv.goodB, m5, ?_, ?_⟩, m1, List.prefix_refl _⟩
      · intro c p hcp
        obtain ⟨cs, hcs, hccs⟩ := hinv.provB c p hcp
        exact ⟨cs, List.mem_append.2 (Or.inl hcs), hccs⟩
      · intro hne t htF htB
        exact m6 (hinv.disj hne) t htF htB
    · exact obsGood_append hog (plB htame).2
    · obtain ⟨m1, m2, m3, m4, m5, m6⟩ := core hinv
      intro t ht
      rcases ht with htF | htB
      · rcases m2 t htF with hold | ⟨pr, hpr, htpr⟩
        · exact hkeep t (Or.inl hold)
        · exact Or.inr (Or.inr ((plB htame).1 pr hpr t htpr))
      · exact hkeep t (Or.inr htB)
  · -- backward expansion
    simp only [if_neg hdir] at heq ⊢
    obtain ⟨plA, plB⟩ := processLevel_spec o st.stepCount Direction.backward
      (st.queueB.take BATCH_SIZE) st.pageCache st.blCache st.catCache
    have core : SearchInv s e st →
        st.parentB <+: p2 ∧
        (∀ t ∈ pmKeys p2, t ∈ pmKeys st.parentB ∨
          ∃ pr ∈ (processLevel o st.stepCount Direction.backward
            (st.queueB.take BATCH_SIZE) st.pageCache st.blCache st.catCache).1,
            t ∈ pr.2) ∧
        (∀ t ∈ q2, t ∈ pmKeys p2) ∧
        PMGood e p2 ∧
        (∀ c p, (c, some p) ∈ p2 → ∃ cs,
          ObsEntry.childrenOf Direction.backward p cs ∈ st.obs ++
            (processLevel o st.stepCount Direction.backward
              (st.queueB.take BATCH_SIZE) st.pageCache st.blCache st.catCache).2.2.2.2
          ∧ c ∈ cs) ∧
        ((∀ t, t ∈ pmKeys st.parentB → t ∈ pmKeys st.parentF → False) →
          ∀ t, t ∈ pmKeys p2 → t ∈ pmKeys st.parentF → False) := by
      intro hinv
      refine mergeResults_more_spec st.parentF e
        (fun c p => ∃ cs, ObsEntry.childrenOf Direction.backward p cs ∈ st.obs ++
          (processLevel o st.stepCount Direction.backward
            (st.queueB.take BATCH_SIZE) st.pageCache st.blCache st.catCache).2.2.2.2
          ∧ c ∈ cs)
        ?_ ?_ hinv.goodB ?_ heq
      · intro pr hpr
        exact ⟨hinv.qB pr.1 (List.mem_of_mem_take (plA pr hpr).1),
          fun c hc => ⟨pr.2, List.mem_append.2 (Or.inr (plA pr hpr).2), hc⟩⟩
      · intro t ht
        exact hinv.qB t (List.mem_of_mem_drop ht)
      · intro c p hcp
        obtain ⟨cs, hcs, hccs⟩ := hinv.provB c p hcp
        exact ⟨cs, List.mem_append.2 (Or.inl hcs), hccs⟩
    refine ⟨fun hinv => ?_, ⟨_, rfl⟩, fun htame hog => ?_, fun htame hinv hkeep => ?_⟩
    · obtain ⟨m1, m2, m3, m4, m5, m6⟩ := core hinv
      refine ⟨⟨hinv.qF, m3, hinv.goodF, m4, ?_, m5, ?_⟩, List.prefix_refl _, m1⟩
      · intro c p hcp
        obtain ⟨cs, hcs, hccs⟩ := hinv.provF c p hcp
        exact ⟨cs, List.mem_append.2 (Or.inl hcs), hccs⟩
      · intro hne t htF htB
        exact m6 (fun t' htB' htF' => hinv.disj hne t' htF' htB') t htB htF
    · exact obsGood_append hog (plB htame).2
    · obtain ⟨m1, m2, m3, m4, m5, m6⟩ := core hinv
      intro t ht
      rcases ht with htF | htB
      · exact hkeep t (Or.inl htF)
      · rcases m2 t htB with hold | ⟨pr, hpr, htpr⟩
        · exact hkeep t (Or.inr hold)
        · exact Or.inr (Or.inr ((plB htame).1 pr hpr t htpr))

theorem searchStep_halt_state {o : SearchOracle} {st : SearchState}
    {evts : List (Nat × Event)} {st' : SearchState} (s e : String)
    (h : searchStep o st = .halt evts st') :
    OracleTame o → SearchInv s e st → KeepInv s e st → KeepInv s e st' := by
  unfold searchStep at h
  dsimp only at h
  repeat' split at h
  any_goals exact StepOut.noConfusion h
  all_goals injection h with h1 h2
  all_goals subst h2
  all_goals try exact Direction.noConfusion ‹Direction.forward = Direction.backward›
  all_goals try exact Direction.noConfusion ‹Direction.backward = Direction.forward›
  all_goals intro htame hinv hkeep
  any_goals exact hkeep
  · -- depth limit halt after a forward expansion
    rename_i hq0 htime hvis mo q2 p2 heq hdepth hdir d1 hd1 d2 hd2
    simp only [if_pos hdir] at heq ⊢
    obtain ⟨plA, plB⟩ := processLevel_spec o st.stepCount Direction.forward
      (st.queueF.take BATCH_SIZE) st.pageCache st.blCache st.catCache
    obtain ⟨m1, m2, m3, m4, m5, m6⟩ := mergeResults_more_spec st.parentB s
      (fun _ _ => True)
      (fun pr hpr => ⟨hinv.qF pr.1 (List.mem_of_mem_take (plA pr hpr).1),
        fun _ _ => trivial⟩)
      (fun t ht => hinv.qF t (List.mem_of_mem_drop ht))
      hinv.goodF (fun _ _ _ => trivial) heq
    intro t ht
    rcases ht with htF | htB
    · rcases m2 t htF with hold | ⟨pr, hpr, htpr⟩
      · exact hkeep t (Or.inl hold)
      · exact Or.inr (Or.inr ((plB htame).1 pr hpr t htpr))
    · exact hkeep t (Or.inr htB)
  · -- depth limit halt after a backward expansion
    rename_i hq0 htime hvis mo q2 p2 heq hdepth hdir d1 hd1 d2 hd2
    simp only [if_neg hdir] at heq ⊢
    obtain ⟨plA, plB⟩ := processLevel_spec o st.stepCount Direction.backward
      (st.queueB.take BATCH_SIZE) st.pageCache st.blCache st.catCache
    obtain ⟨m1, m2, m3, m4, m5, m6⟩ := mergeResults_more_spec st.parentF e
      (fun _ _ => True)
      (fun pr hpr => ⟨hinv.qB pr.1 (List.mem_of_mem_take (plA pr hpr).1),
        fun _ _ => trivial⟩)
      (fun t ht => hinv.qB t (List.mem_of_mem_drop ht))
      hinv.goodB (fun _ _ _ => trivial) heq
    intro t ht
    rcases ht with htF | htB
    · exact hkeep t (Or.inl htF)
    · rcases m2 t htB with hold | ⟨pr, hpr, htpr⟩
      · exact hkeep t (Or.inr hold)
      · exact Or.inr (Or.inr ((plB htame).1 pr hpr t htpr))
  · -- meeting halt after a forward expansion
    rename_i hq0 htime hvis mo c2 q2 p2 heq hdir d1 hd1 d2 hd2
    simp only [if_pos hdir] at heq ⊢
    obtain ⟨plA, plB⟩ := processLevel_spec o st.stepCount Direction.forward
      (st.queueF.take BATCH_SIZE) st.pageCache st.blCache st.catCache
    obtain ⟨m1, mk, m2, m3, m4, m5, m6, m7⟩ := mergeResults_met_spec st.parentB s
      (fun _ _ => True)
      (fun pr hpr => ⟨hinv.qF pr.1 (List.mem_of_mem_take (plA pr hpr).1),
        fun _ _ => trivial⟩)
      (fun t ht => hinv.qF t (List.mem_of_mem_drop ht))
      hinv.goodF (fun _ _ _ => trivial) heq
    intro t ht
    rcases ht with htF | htB
    · rcases mk t htF with hold | ⟨pr, hpr, htpr⟩
      · exact hkeep t (Or.inl hold)
      · exact Or.inr (Or.inr ((plB htame).1 pr hpr t htpr))
    · exact hkeep t (Or.inr htB)
  · -- meeting halt after a backward expansion
    rename_i hq0 htime hvis mo c2 q2 p2 heq hdir d1 hd1 d2 hd2
    simp only [if_neg hdir] at heq ⊢
    obtain ⟨plA, plB⟩ := processLevel_spec o st.stepCount Direction.backward
      (st.queueB.take BATCH_SIZE) st.pageCache st.blCache st.catCache
    obtain ⟨m1, mk, m2, m3, m4, m5, m6, m7⟩ := mergeResults_met_spec st.parentF e
      (fun _ _ => True)
      (fun pr hpr => ⟨hinv.qB pr.1 (List.mem_of_mem_take (plA pr hpr).1),
        fun _ _ => trivial⟩)
      (fun t ht => hinv.qB t (List.mem_of_mem_drop ht))
      hinv.goodB (fun _ _ _ => trivial) heq
    intro t ht
    rcases ht with htF | htB
    · exact hkeep t (Or.inl htF)
    · rcases mk t htB with hold | ⟨pr, hpr, htpr⟩
      · exact hkeep t (Or.inr hold)
      · exact Or.inr (Or.inr ((plB htame).1 pr hpr t htpr))

theorem observedEdge_of_pageLinks {obs : List ObsEntry} {x y : String}
    {ls : List String} (h : ObsEntry.pageLinks x ls ∈ obs) (hy : y ∈ ls) :
    observedEdge obs x y = true := by
  have h1 : (obs.any fun entry => match entry with
      | ObsEntry.pageLinks t ls' => t == x && ls'.contains y
      | _ => false) = true :=
    List.any_eq_true.2 ⟨.pageLinks x ls, h, by simp [hy]⟩
  unfold observedEdge
  rw [h1]
  simp

theorem observedEdge_of_backlinks {obs : List ObsEntry} {x y : String}
    {ls : List String} (h : ObsEntry.backlinks y ls ∈ obs) (hx : x ∈ ls) :
    observedEdge obs x y = true := by
  have h1 : (obs.any fun entry => match entry with
      | ObsEntry.backlinks t ls' => t == y && ls'.contains x
      | _ => false) = true :=
    List.any_eq_true.2 ⟨.backlinks y ls, h, by simp [hx]⟩
  unfold observedEdge
  rw [h1]
  simp

/-- Path validity at a meeting: if `c` is a key of both parent maps, the
maps are well-formed forests rooted at the two endpoints with all
non-root bindings justified by children observations backed by fetches,
and the key sets intersect only at `c`, then the reconstructed full path
runs from `s` to `e` without repetitions along observed edges. -/
theorem met_path_spec {s e : String} {pF pB : PM} {c : String}
    {obs : List ObsEntry}
    (hgF : PMGood s pF) (hgB : PMGood e pB)
    (hprovF : ∀ c' p, (c', some p) ∈ pF →
      ∃ cs, ObsEntry.childrenOf .forward p cs ∈ obs ∧ c' ∈ cs)
    (hprovB : ∀ c' p, (c', some p) ∈ pB →
      ∃ cs, ObsEntry.childrenOf .backward p cs ∈ obs ∧ c' ∈ cs)
    (hog : ObsGood obs)
    (hcF : c ∈ pmKeys pF) (hcB : c ∈ pmKeys pB)
    (hhalf : ∀ t, t ∈ pmKeys pF → t ∈ pmKeys pB → t = c) :
    ((reconstructPath pF c false).dropLast ++ reconstructPath pB c true).head?
      = some s ∧
    ((reconstructPath pF c false).dropLast
      ++ reconstructPath pB c true).getLast? = some e ∧
    ((reconstructPath pF c false).dropLast ++ reconstructPath pB c true).Nodup ∧
    List.Chain' (fun x y => observedEdge obs x y = true)
      ((reconstructPath pF c false).dropLast ++ reconstructPath pB c true) := by
  obtain ⟨fhead, flast, fnd, fmem, fchain, _⟩ := walk_full hgF hcF
  obtain ⟨bhead, blast, bnd, bmem, bchain, _⟩ := walk_full hgB hcB
  set wF := reconstructWalk (pF.length + 1) pF c with hwF
  set wB := reconstructWalk (pB.length + 1) pB c with hwB
  have hpathF : reconstructPath pF c false = wF.reverse := by
    simp [reconstructPath, hwF]
  have hpathB : reconstructPath pB c true = wB := by
    simp [reconstructPath, hwB]
  rw [hpathF, hpathB]
  obtain ⟨tF, htF⟩ : ∃ tF, wF = c :: tF := by
    rcases hw : wF with _ | ⟨a, t⟩
    · rw [hw] at fhead
      exact absurd fhead (by simp)
    · rw [hw] at fhead
      exact ⟨t, by simpa using congrArg (Option.getD · "") fhead⟩
  obtain ⟨tB, htB⟩ : ∃ tB, wB = c :: tB := by
    rcases hw : wB with _ | ⟨a, t⟩
    · rw [hw] at bhead
      exact absurd bhead (by simp)
    · rw [hw] at bhead
      exact ⟨t, by simpa using congrArg (Option.getD · "") bhead⟩
  -- the forward part of the path without the meeting node
  have hdrop : wF.reverse.dropLast = tF.reverse := by
    rw [htF]
    simp only [List.reverse_cons]
    exact List.dropLast_concat
  -- edge relation transfer
  have hRF : ∀ a b, pmLookup pF a = some (some b) →
      observedEdge obs b a = true := by
    intro a b hab
    obtain ⟨cs, hcs, hacs⟩ := hprovF a b (pmLookup_mem_entry hab)
    obtain ⟨ls, hls, hals⟩ := hog .forward b cs hcs a hacs
    exact observedEdge_of_pageLinks hls hals
  have hRB : ∀ a b, pmLookup pB a = some (some b) →
      observedEdge obs a b = true := by
    intro a b hab
    obtain ⟨cs, hcs, hacs⟩ := hprovB a b (pmLookup_mem_entry hab)
    obtain ⟨ls, hls, hals⟩ := hog .backward b cs hcs a hacs
    exact observedEdge_of_backlinks hls hals
  have hchainFrev : List.Chain' (fun x y => observedEdge obs x y = true)
      wF.reverse := by
    rw [List.chain'_reverse]
    exact fchain.imp (fun a b hab => hRF a b hab)
  have hchainB : List.Chain' (fun x y => observedEdge obs x y = true) wB :=
    bchain.imp (fun a b hab => hRB a b hab)
  have hchainDrop : List.Chain' (fun x y => observedEdge obs x y = true)
      wF.reverse.dropLast :=
    hchainFrev.prefix (by rw [hdrop, htF]; simp)
  have hdisjoint : ∀ x ∈ tF, x ∉ wB := by
    intro x hx hxB
    have hxF : x ∈ wF := htF ▸ List.mem_cons_of_mem _ hx
    have hxc : x = c := hhalf x (fmem x hxF) (bmem x hxB)
    rw [htF] at fnd
    exact (List.nodup_cons.1 fnd).1 (hxc ▸ hx)
  refine ⟨?_, ?_, ?_, ?_⟩
  · -- head
    rcases htF' : tF with _ | ⟨t1, tF'⟩
    · rw [hdrop, htF']
      simp only [List.reverse_nil, List.nil_append]
      have hc : c = s := by
        rw [htF, htF'] at flast
        simpa using flast
      rw [htB, hc]
      rfl
    · rw [hdrop, htF']
      have hne : (t1 :: tF').reverse ≠ [] := by simp
      rcases hrev : (t1 :: tF').reverse with _ | ⟨r1, rrest⟩
      · exact absurd hrev hne
      · simp only [List.cons_append, List.head?_cons]
        have hlastF : wF.getLast? = some s := flast
        rw [htF, htF'] at hlastF
        rw [List.getLast?_cons_cons] at hlastF
        have hh : (t1 :: tF').reverse.head? = some s := by
          rw [List.head?_reverse]
          exact hlastF
        rw [hrev] at hh
        simpa using hh
  · -- last
    rw [List.getLast?_append]
    rw [htB] at blast
    rw [htB]
    simp [blast]
  · -- nodup
    rw [List.nodup_append, hdrop]
    refine ⟨by simpa using (List.nodup_cons.1 (htF ▸ fnd)).2, bnd, ?_⟩
    intro x hx
    exact hdisjoint x (by simpa using hx)
  · -- chain
    rw [List.chain'_append]
    refine ⟨hchainDrop, hchainB, ?_⟩
    intro x hx y hy
    rw [htB] at hy
    have hyc : (some c : Option String) = some y := hy
    obtain rfl : c = y := by simpa using hyc
    rw [hdrop] at hx
    rcases htF' : tF with _ | ⟨t1, tF'⟩
    · rw [htF'] at hx
      simp at hx
    · rw [htF'] at hx
      have hx2 : (t1 :: tF').reverse.getLast? = some x := hx
      rw [List.getLast?_reverse] at hx2
      have hx' : t1 = x := by simpa using hx2
      have hstep : pmLookup pF c = some (some x) := by
        have h3 := fchain
        rw [htF, htF'] at h3
        rw [← hx']
        exact (List.chain'_cons.1 h3).1
      exact hRF c x hstep

theorem searchStep_finished {o : SearchOracle} {st : SearchState}
    {evts : List (Nat × Event)} {stF : SearchState} (s e : String)
    (p : List String) (hne : s ≠ e) (htame : OracleTame o)
    (hinv : SearchInv s e st) (hog : ObsGood st.obs)
    (h : searchStep o st = .halt evts stF)
    (hp : ∃ tag, (tag, Event.finished p) ∈ evts) :
    p.head? = some s ∧ p.getLast? = some e ∧ p.Nodup ∧
    List.Chain' (fun x y => observedEdge stF.obs x y = true) p := by
  obtain ⟨tag, htag⟩ := hp
  unfold searchStep at h
  dsimp only at h
  repeat' split at h
  any_goals exact StepOut.noConfusion h
  all_goals injection h with h1 h2
  all_goals subst h1
  all_goals subst h2
  any_goals simp at htag
  all_goals try exact Direction.noConfusion ‹Direction.forward = Direction.backward›
  all_goals try exact Direction.noConfusion ‹Direction.backward = Direction.forward›
  · -- meeting after a forward expansion
    rename_i hq0 htime hvis mo c2 q2 p2 heq hdir d1 hd1 d2 hd2
    simp only [if_pos hdir] at heq ⊢
    obtain ⟨plA, plB⟩ := processLevel_spec o st.stepCount Direction.forward
      (st.queueF.take BATCH_SIZE) st.pageCache st.blCache st.catCache
    obtain ⟨m1, mk, m2, m3, m4, m5, m6, m7⟩ := mergeResults_met_spec st.parentB s
      (fun c p => ∃ cs, ObsEntry.childrenOf Direction.forward p cs ∈ st.obs ++
        (processLevel o st.stepCount Direction.forward
          (st.queueF.take BATCH_SIZE) st.pageCache st.blCache st.catCache).2.2.2.2
        ∧ c ∈ cs)
      (fun pr hpr => ⟨hinv.qF pr.1 (List.mem_of_mem_take (plA pr hpr).1),
        fun c hc => ⟨pr.2, List.mem_append.2 (Or.inr (plA pr hpr).2), hc⟩⟩)
      (fun t ht => hinv.qF t (List.mem_of_mem_drop ht))
      hinv.goodF
      (fun c pp hcp => by
        obtain ⟨cs, hcs, hccs⟩ := hinv.provF c pp hcp
        exact ⟨cs, List.mem_append.2 (Or.inl hcs), hccs⟩) heq
    obtain ⟨-, rfl⟩ := htag
    exact met_path_spec m3 hinv.goodB m4
      (fun c pp hcp => by
        obtain ⟨cs, hcs, hccs⟩ := hinv.provB c pp hcp
        exact ⟨cs, List.mem_append.2 (Or.inl hcs), hccs⟩)
      (obsGood_append hog (plB htame).2) m5 m6 (m7 (hinv.disj hne))
  · -- meeting after a backward expansion
    rename_i hq0 htime hvis mo c2 q2 p2 heq hdir d1 hd1 d2 hd2
    simp only [if_neg hdir] at heq ⊢
    obtain ⟨plA, plB⟩ := processLevel_spec o st.stepCount Direction.backward
      (st.queueB.take BATCH_SIZE) st.pageCache st.blCache st.catCache
    obtain ⟨m1, mk, m2, m3, m4, m5, m6, m7⟩ := mergeResults_met_spec st.parentF e
      (fun c p => ∃ cs, ObsEntry.childrenOf Direction.backward p cs ∈ st.obs ++
        (processLevel o st.stepCount Direction.backward
          (st.queueB.take BATCH_SIZE) st.pageCache st.blCache st.catCache).2.2.2.2
        ∧ c ∈ cs)
      (fun pr hpr => ⟨hinv.qB pr.1 (List.mem_of_mem_take (plA pr hpr).1),
        fun c hc => ⟨pr.2, List.mem_append.2 (Or.inr (plA pr hpr).2), hc⟩⟩)
      (fun t ht => hinv.qB t (List.mem_of_mem_drop ht))
      hinv.goodB
      (fun c pp hcp => by
        obtain ⟨cs, hcs, hccs⟩ := hinv.provB c pp hcp
        exact ⟨cs, List.mem_append.2 (Or.inl hcs), hccs⟩) heq
    obtain ⟨-, rfl⟩ := htag
    exact met_path_spec hinv.goodF m3
      (fun c pp hcp => by
        obtain ⟨cs, hcs, hccs⟩ := hinv.provF c pp hcp
        exact ⟨cs, List.mem_append.2 (Or.inl hcs), hccs⟩)
      m4 (obsGood_append hog (plB htame).2) m6 m5
      (fun t h1 h2 => m7 (fun t' hB hF => hinv.disj hne t' hF hB) t h2 h1)

/-! ## Lemmas: reachable states of the loop -/

theorem reaches_invariants {o : SearchOracle} {st st' : SearchState}
    (s e : String) (hr : Reaches o st st') (hinv : SearchInv s e st) :
    SearchInv s e st' ∧
    (OracleTame o → ObsGood st.obs → ObsGood st'.obs) ∧
    (OracleTame o → KeepInv s e st → KeepInv s e st') ∧
    st.parentF <+: st'.parentF ∧ st.parentB <+: st'.parentB := by
  induction hr with
  | refl st =>
    exact ⟨hinv, fun _ h => h, fun _ h => h, List.prefix_refl _,
      List.prefix_refl _⟩
  | step hstep hrest ih =>
    rename_i st0 st1 st2 evts
    obtain ⟨hA, hD, hE, hF⟩ := searchStep_next_inv s e hstep
    obtain ⟨hinv1, hpre1, hpre2⟩ := hA hinv
    obtain ⟨ih1, ih2, ih3, ih4, ih5⟩ := ih hinv1
    refine ⟨ih1, fun htame hog => ih2 htame (hE htame hog),
      fun htame hk => ih3 htame (hF htame hinv hk),
      hpre1.trans ih4, hpre2.trans ih5⟩

theorem searchInit_inv (s e : String) (pc : PageCache) (bc : BlCache)
    (cc : CatCache) :
    SearchInv s e (searchInit s e pc bc cc) ∧
    ObsGood (searchInit s e pc bc cc).obs ∧
    KeepInv s e (searchInit s e pc bc cc) := by
  refine ⟨⟨?_, ?_, ?_, ?_, ?_, ?_, ?_⟩, ?_, ?_⟩
  · intro t ht
    simpa [searchInit, pmKeys] using (by simpa [searchInit] using ht : t = s)
  · intro t ht
    simpa [searchInit, pmKeys] using (by simpa [searchInit] using ht : t = e)
  · refine ⟨by simp [searchInit, pmKeys], by simp [searchInit], ?_, ?_⟩
    · intro c po h _
      have h2 : c = s ∧ po = none := by simpa [searchInit] using h
      exact h2.1
    · exact ⟨fun p hp => Option.noConfusion hp, trivial⟩
  · refine ⟨by simp [searchInit, pmKeys], by simp [searchInit], ?_, ?_⟩
    · intro c po h _
      have h2 : c = e ∧ po = none := by simpa [searchInit] using h
      exact h2.1
    · exact ⟨fun p hp => Option.noConfusion hp, trivial⟩
  · intro c p hcp
    simp [searchInit] at hcp
  · intro c p hcp
    simp [searchInit] at hcp
  · intro hne t htF htB
    have h1 : t = s := by simpa [searchInit, pmKeys] using htF
    have h2 : t = e := by simpa [searchInit, pmKeys] using htB
    exact hne (h1 ▸ h2)
  · intro d n cs h
    simp [searchInit] at h
  · intro t ht
    rcases ht with h | h
    · exact Or.inl (by simpa [searchInit, pmKeys] using h)
    · exact Or.inr (Or.inl (by simpa [searchInit, pmKeys] using h))

theorem searchLoop_keep {o : SearchOracle} (s e : String)
    (htame : OracleTame o) :
    ∀ (fuel : Nat) (st : SearchState), SearchInv s e st → KeepInv s e st →
      KeepInv s e (searchLoop o fuel st).2
  | 0, st, _, hk => hk
  | fuel + 1, st, hinv, hk => by
    rw [searchLoop]
    rcases hs : searchStep o st with ⟨evts, st1⟩ | ⟨evts, st1⟩
    · exact searchStep_halt_state s e hs htame hinv hk
    · obtain ⟨hA, hD, hE, hF⟩ := searchStep_next_inv s e hs
      exact searchLoop_keep s e htame fuel st1 (hA hinv).1 (hF htame hinv hk)

theorem searchLoop_finished {o : SearchOracle} :
    ∀ (fuel : Nat) (st : SearchState) (p : List String) (tag : Nat),
      (tag, Event.finished p) ∈ (searchLoop o fuel st).1 →
      ∃ st1 evts stF, Reaches o st st1 ∧ searchStep o st1 = .halt evts stF ∧
        (tag, Event.finished p) ∈ evts ∧ (searchLoop o fuel st).2 = stF
  | 0, st, p, tag, h => absurd h (by simp [searchLoop])
  | fuel + 1, st, p, tag, h => by
    rw [searchLoop] at h ⊢
    rcases hs : searchStep o st with ⟨evts, st1⟩ | ⟨evts, st1⟩
    · rw [hs] at h
      exact ⟨st, evts, st1, Reaches.refl st, hs, h, rfl⟩
    · rw [hs] at h
      rcases List.mem_append.1 h with h' | h'
      · have := (searchStep_next_basic hs).2.2 _ h'
        exact absurd this (by simp [Event.isTerminal])
      · obtain ⟨st2, evts2, stF, hr, hhalt, hmem, hfinal⟩ :=
          searchLoop_finished fuel st1 p tag h'
        exact ⟨st2, evts2, stF, Reaches.step hs hr, hhalt, hmem, hfinal⟩

theorem allFailOracle_tame : OracleTame allFailOracle :=
  ⟨fun _ _ _ _ hx => hx, fun _ _ _ _ _ h => CatResponse.noConfusion h⟩

theorem finishOracle_tame : OracleTame finishOracle :=
  ⟨fun _ _ _ _ hx => hx, fun _ _ _ _ _ h => CatResponse.noConfusion h⟩

/-- C2 (amended).  If a `finished` event with path `p` is emitted by a
search from `s` to `e` with `s ≠ e`, then -- provided the category
responses report only queried titles (no redirect retitling; the shuffle
permutes, here only membership preservation is used) -- `p` starts at `s`,
ends at `e`, has no repeated titles, and every consecutive pair is joined
by a forward edge (the successor occurs among the outgoing links fetched
for the predecessor) or a backward edge (the predecessor occurs among the
backlinks fetched for the successor) in the data observed during the
search.  With redirect retitling, or with `s = e`, the property fails (see
the counterexample). -/
theorem c2_finished_path_valid (o : SearchOracle) (s e : String)
    (pc : PageCache) (bc : BlCache) (cc : CatCache) (p : List String)
    (hne : s ≠ e) (htame : OracleTame o)
    (hfin : Event.finished p ∈ searchEvents o s e pc bc cc) :
    p.head? = some s ∧ p.getLast? = some e ∧ p.Nodup ∧
    List.Chain' (fun x y =>
      observedEdge (search o s e pc bc cc).2.obs x y = true) p := by
  have hfin' : Event.finished p ∈ ((searchLoop o (MAX_STEP_COUNT + 1)
      (searchInit s e pc bc cc)).1).map Prod.snd := by
    have h0 : searchEvents o s e pc bc cc
        = Event.info :: ((searchLoop o (MAX_STEP_COUNT + 1)
            (searchInit s e pc bc cc)).1).map Prod.snd := rfl
    rw [h0] at hfin
    rcases List.mem_cons.1 hfin with h' | h'
    · exact absurd h' (by simp)
    · exact h'
  rcases List.mem_map.1 hfin' with ⟨pr, hpr, hsnd⟩
  obtain ⟨tag, rfl⟩ : ∃ tag, pr = (tag, Event.finished p) :=
    ⟨pr.1, by rw [← hsnd]⟩
  obtain ⟨st1, evts1, stF, hr, hhalt, hmem, hfinal⟩ :=
    searchLoop_finished (MAX_STEP_COUNT + 1) (searchInit s e pc bc cc) p tag hpr
  obtain ⟨hinv0, hog0, hk0⟩ := searchInit_inv s e pc bc cc
  obtain ⟨hinv1, hogf, hkf, hp1, hp2⟩ := reaches_invariants s e hr hinv0
  have hog1 : ObsGood st1.obs := hogf htame hog0
  have hmain := searchStep_finished s e p hne htame hinv1 hog1 hhalt ⟨tag, hmem⟩
  have hobs : (search o s e pc bc cc).2.obs = stF.obs :=
    congrArg SearchState.obs hfinal
  rw [hobs]
  exact hmain

theorem c2_finished_path_valid_witness :
    (["Aaa", "Elon Musk"] : List String).head? = some "Aaa" ∧
    (["Aaa", "Elon Musk"] : List String).getLast? = some "Elon Musk" ∧
    (["Aaa", "Elon Musk"] : List String).Nodup ∧
    List.Chain' (fun x y =>
      observedEdge (search finishOracle "Aaa" "Elon Musk" [] [] []).2.obs x y
        = true) ["Aaa", "Elon Musk"] :=
  c2_finished_path_valid finishOracle "Aaa" "Elon Musk" [] [] []
    ["Aaa", "Elon Musk"] (by decide) finishOracle_tame (by decide)

/-- C2 counterexample.  Two concrete runs refute the claim as stated.
First, with redirect retitling: querying the link `"Yyy"` of the start
page yields a response for the page `"Xxx"`, the search admits `"Xxx"`
and later finishes with the path `["Aaa", "Xxx", "Elon Musk"]`, whose
first pair is joined by no forward or backward edge in the data observed
during the search.  Second, with `start = end`: the search finishes with
the path `["Aaa", "Bob Smith", "Aaa"]`, whose elements are not distinct. -/
theorem c2_counterexample_redirect_and_start_eq_end :
    (Event.finished ["Aaa", "Xxx", "Elon Musk"]
        ∈ searchEvents redirectOracle "Aaa" "Elon Musk" [] [] [] ∧
      observedEdge (search redirectOracle "Aaa" "Elon Musk" [] [] []).2.obs
        "Aaa" "Xxx" = false) ∧
    (Event.finished ["Aaa", "Bob Smith", "Aaa"]
        ∈ searchEvents loopOracle "Aaa" "Aaa" [] [] [] ∧
      ¬ (["Aaa", "Bob Smith", "Aaa"] : List String).Nodup) := by decide

/-- C7 (amended).  Provided the category responses report only queried
titles (no redirect retitling), every title appearing as a key of either
frontier's parent map at any point of the search -- the keys only grow, so
the final state covers all of them -- is one of the two roots or passes
the heuristic filter.  The two roots are inserted unfiltered, so a
rejected start or end title does appear as a key (see the
counterexample). -/
theorem c7_nonroot_keys_pass_filter (o : SearchOracle) (s e : String)
    (pc : PageCache) (bc : BlCache) (cc : CatCache) (htame : OracleTame o) :
    ∀ t, (t ∈ pmKeys (search o s e pc bc cc).2.parentF ∨
          t ∈ pmKeys (search o s e pc bc cc).2.parentB) →
      t = s ∨ t = e ∨ heuristicKeep t = true := by
  obtain ⟨hinv0, hog0, hk0⟩ := searchInit_inv s e pc bc cc
  exact searchLoop_keep s e htame (MAX_STEP_COUNT + 1)
    (searchInit s e pc bc cc) hinv0 hk0

theorem c7_nonroot_keys_pass_filter_witness :
    ("Aaa" ∈ pmKeys (search allFailOracle "Aaa" "Elon Musk" [] [] []).2.parentF ∨
      "Aaa" ∈ pmKeys (search allFailOracle "Aaa" "Elon Musk" [] [] []).2.parentB) ∧
    ("Aaa" = "Aaa" ∨ "Aaa" = "Elon Musk" ∨ heuristicKeep "Aaa" = true) :=
  ⟨Or.inl (by decide),
   c7_nonroot_keys_pass_filter allFailOracle "Aaa" "Elon Musk" [] [] []
     allFailOracle_tame "Aaa" (Or.inl (by decide))⟩

/-- C7 counterexample.  The roots are inserted into the parent maps
without passing the heuristic filter: searching from `"2024"` (rejected by
the filter, since its first character is a digit) leaves `"2024"` as a key
of the forward parent map. -/
theorem c7_counterexample_root_rejected :
    "2024" ∈ pmKeys (search allFailOracle "2024" "Elon Musk" [] [] []).2.parentF ∧
    heuristicKeep "2024" = false := by decide

/-- C9 (confirmed).  At every reachable loop state of every search: each
queue is contained in its parent map's key set; the key sets have no
duplicates (a title is never re-inserted); bindings persist unchanged for
the rest of the search (first insertion wins, the parent is never
re-assigned); and from any key, following parent pointers reaches the
direction's root (which maps to `none`) in finitely many steps -- the
reconstruction walk stabilizes at fuel `|pm| + 1`, so path reconstruction
terminates. -/
theorem c9_frontier_invariants (o : SearchOracle) (s e : String)
    (pc : PageCache) (bc : BlCache) (cc : CatCache) (st : SearchState)
    (hr : Reaches o (searchInit s e pc bc cc) st) :
    (∀ t ∈ st.queueF, t ∈ pmKeys st.parentF) ∧
    (∀ t ∈ st.queueB, t ∈ pmKeys st.parentB) ∧
    (pmKeys st.parentF).Nodup ∧ (pmKeys st.parentB).Nodup ∧
    (∀ st2, Reaches o st st2 →
      (∀ c po, pmLookup st.parentF c = some po →
        pmLookup st2.parentF c = some po) ∧
      (∀ c po, pmLookup st.parentB c = some po →
        pmLookup st2.parentB c = some po)) ∧
    (∀ t ∈ pmKeys st.parentF,
      (reconstructWalk (st.parentF.length + 1) st.parentF t).getLast? = some s ∧
      ∀ m, st.parentF.length + 1 ≤ m →
        reconstructWalk m st.parentF t
          = reconstructWalk (st.parentF.length + 1) st.parentF t) ∧
    (∀ t ∈ pmKeys st.parentB,
      (reconstructWalk (st.parentB.length + 1) st.parentB t).getLast? = some e ∧
      ∀ m, st.parentB.length + 1 ≤ m →
        reconstructWalk m st.parentB t
          = reconstructWalk (st.parentB.length + 1) st.parentB t) := by
  obtain ⟨hinv0, hog0, hk0⟩ := searchInit_inv s e pc bc cc
  obtain ⟨hinv, _, _, _, _⟩ := reaches_invariants s e hr hinv0
  refine ⟨hinv.qF, hinv.qB, hinv.goodF.nodup, hinv.goodB.nodup, ?_, ?_, ?_⟩
  · intro st2 hr2
    obtain ⟨_, _, _, hpF, hpB⟩ := reaches_invariants s e hr2 hinv
    exact ⟨fun c po hpo => pmLookup_prefix hpF hpo,
      fun c po hpo => pmLookup_prefix hpB hpo⟩
  · intro t ht
    obtain ⟨_, hlast, _, _, _, hstable⟩ := walk_full hinv.goodF ht
    exact ⟨hlast, hstable⟩
  · intro t ht
    obtain ⟨_, hlast, _, _, _, hstable⟩ := walk_full hinv.goodB ht
    exact ⟨hlast, hstable⟩

theorem c9_frontier_invariants_witness :
    (∀ t ∈ (searchInit "Aaa" "Elon Musk" [] [] []).queueF,
      t ∈ pmKeys (searchInit "Aaa" "Elon Musk" [] [] []).parentF) ∧
    (∀ t ∈ (searchInit "Aaa" "Elon Musk" [] [] []).queueB,
      t ∈ pmKeys (searchInit "Aaa" "Elon Musk" [] [] []).parentB) ∧
    (pmKeys (searchInit "Aaa" "Elon Musk" [] [] []).parentF).Nodup ∧
    (pmKeys (searchInit "Aaa" "Elon Musk" [] [] []).parentB).Nodup ∧
    (∀ st2, Reaches allFailOracle (searchInit "Aaa" "Elon Musk" [] [] []) st2 →
      (∀ c po, pmLookup (searchInit "Aaa" "Elon Musk" [] [] []).parentF c
          = some po → pmLookup st2.parentF c = some po) ∧
      (∀ c po, pmLookup (searchInit "Aaa" "Elon Musk" [] [] []).parentB c
          = some po → pmLookup st2.parentB c = some po)) ∧
    (∀ t ∈ pmKeys (searchInit "Aaa" "Elon Musk" [] [] []).parentF,
      (reconstructWalk ((searchInit "Aaa" "Elon Musk" [] [] []).parentF.length + 1)
        (searchInit "Aaa" "Elon Musk" [] [] []).parentF t).getLast? = some "Aaa" ∧
      ∀ m, (searchInit "Aaa" "Elon Musk" [] [] []).parentF.length + 1 ≤ m →
        reconstructWalk m (searchInit "Aaa" "Elon Musk" [] [] []).parentF t
          = reconstructWalk
              ((searchInit "Aaa" "Elon Musk" [] [] []).parentF.length + 1)
              (searchInit "Aaa" "Elon Musk" [] [] []).parentF t) ∧
    (∀ t ∈ pmKeys (searchInit "Aaa" "Elon Musk" [] [] []).parentB,
      (reconstructWalk ((searchInit "Aaa" "Elon Musk" [] [] []).parentB.length + 1)
        (searchInit "Aaa" "Elon Musk" [] [] []).parentB t).getLast?
          = some "Elon Musk" ∧
      ∀ m, (searchInit "Aaa" "Elon Musk" [] [] []).parentB.length + 1 ≤ m →
        reconstructWalk m (searchInit "Aaa" "Elon Musk" [] [] []).parentB t
          = reconstructWalk
              ((searchInit "Aaa" "Elon Musk" [] [] []).parentB.length + 1)
              (searchInit "Aaa" "Elon Musk" [] [] []).parentB t) :=
  c9_frontier_invariants allFailOracle "Aaa" "Elon Musk" [] [] []
    (searchInit "Aaa" "Elon Musk" [] [] [])
    (Reaches.refl (searchInit "Aaa" "Elon Musk" [] [] []))
